import Mathlib

/-!
Shallow embedding of `Instrumentation/instrumentation/tracing.py` (NRSim).

The Python module builds an execution-provenance graph: `get_unique_id`
fingerprints runtime values, `log_shape_info` records value nodes,
`make_trace_function` produces the instrumented wrapper that maintains the
execution DAG and the call stack, and `assign_levels` layers the DAG for
rendering.  Machine floats are modelled as exact rationals, SHA-256 as an
injective function of the hashed bytes (the development only uses that the
digest is a deterministic function of its input), and Python runtime
identity (`id(obj)`) as an explicit natural-number field carried by every
modelled object.
-/

namespace Tracing

/-- Python primitive values: the `isinstance(obj, (int, float, str, bool))`
branch of `get_unique_id` (bool is listed there explicitly). -/
inductive Prim where
  | pint (i : Int)
  | pfloat (q : Rat)
  | pbool (b : Bool)
  | pstr (s : String)
deriving DecidableEq

/-- Dictionary keys.  The repository only ever uses int and str keys; these
two kinds are mutually incomparable in Python 3 (`sorted` raises
`TypeError` on a mix). -/
inductive PKey where
  | kint (i : Int)
  | kstr (s : String)
deriving DecidableEq

/-- Runtime values seen by the tracer.  Each child position carries the
child object's runtime identity (`id`) as a `Nat` alongside its value, since
`get_unique_id` consults the identity cache for every sub-object.

`tensor` models `torch.Tensor` (flattened, exact-rational elements);
`vobj` models any other object: `pickled = some bytes` when `pickle.dumps`
succeeds, `none` when it raises one of the inner-caught exceptions. -/
inductive Val where
  | tensor (elems : List Rat)
  | vlist (items : List (Nat × Val))
  | vtuple (items : List (Nat × Val))
  | vdict (entries : List (PKey × Nat × Val))
  | vprim (p : Prim)
  | vobj (pickled : Option String) (typeName strRepr : String)

/-- A Python object: runtime identity plus value. -/
abbrev Obj := Nat × Val

/-- `str`/`repr` of a rational, standing in for Python float/int rendering.
Only self-consistency of the textual form matters to the claims. -/
def ratStr (q : Rat) : String :=
  if q.den = 1 then toString q.num else toString q.num ++ "/" ++ toString q.den

/-- `type(obj).__name__` for the modelled values. -/
def pyTypeName : Val → String
  | .tensor _ => "Tensor"
  | .vlist _ => "list"
  | .vtuple _ => "tuple"
  | .vdict _ => "dict"
  | .vprim (.pint _) => "int"
  | .vprim (.pfloat _) => "float"
  | .vprim (.pbool _) => "bool"
  | .vprim (.pstr _) => "str"
  | .vobj _ t _ => t

/-- `repr` of a primitive. -/
def pyReprPrim : Prim → String
  | .pint i => toString i
  | .pfloat q => ratStr q
  | .pbool b => if b then "True" else "False"
  | .pstr s => "\x27" ++ s ++ "\x27"

/-- `str(key)` as used in f-string labels such as `f"{name}[{key}]"`. -/
def pyStrKey : PKey → String
  | .kint i => toString i
  | .kstr s => s

/-- `repr(key)` as it appears inside a dict repr. -/
def pyReprKey : PKey → String
  | .kint i => toString i
  | .kstr s => "\x27" ++ s ++ "\x27"

mutual

/-- Python `repr` of a value (containers recurse with `repr`; a one-element
tuple renders with a trailing comma). -/
def pyReprV : Val → String
  | .tensor es => "tensor([" ++ String.intercalate ", " (es.map ratStr) ++ "])"
  | .vlist items => "[" ++ String.intercalate ", " (pyReprItems items) ++ "]"
  | .vtuple [(_, v)] => "(" ++ pyReprV v ++ ",)"
  | .vtuple items => "(" ++ String.intercalate ", " (pyReprItems items) ++ ")"
  | .vdict entries =>
      "\x7b" ++ String.intercalate ", " (pyReprEntries entries) ++ "\x7d"
  | .vprim p => pyReprPrim p
  | .vobj _ _ r => r
termination_by v => sizeOf v

/-- `repr` of each item of a sequence. -/
def pyReprItems : List (Nat × Val) → List String
  | [] => []
  | (_, v) :: t => pyReprV v :: pyReprItems t
termination_by l => sizeOf l

/-- `repr key: repr value` for each dict entry. -/
def pyReprEntries : List (PKey × Nat × Val) → List String
  | [] => []
  | (k, _, v) :: t => (pyReprKey k ++ ": " ++ pyReprV v) :: pyReprEntries t
termination_by l => sizeOf l

end

/-- Python `str` of a value: bare text for `str`, otherwise `repr`. -/
def pyStrV : Val → String
  | .vprim (.pstr s) => s
  | v => pyReprV v

/-- The tagged fingerprint built by `get_unique_id` before hashing:
child positions already replaced by their hex digests. -/
inductive FP where
  | tensorFP (sum mean max min first last : Rat)
  | listFP (fps : List String)
  | tupleFP (fps : List String)
  | dictFP (entries : List (PKey × String))
  | primFP (p : Prim)
  | serFP (bytes : String)
  | unserFP (s : String)
deriving DecidableEq

/-- JSON rendering of a string (escaping is irrelevant to the claims). -/
def jsonStr (s : String) : String := "\"" ++ s ++ "\""

/-- JSON rendering of a dict key (`json.dumps` renders int keys as numbers,
str keys as strings inside the fingerprint tuple). -/
def jsonKey : PKey → String
  | .kint i => toString i
  | .kstr s => jsonStr s

/-- The byte string actually hashed (lines 137-146): nested fingerprints go
through `json.dumps`, serialized objects contribute their raw bytes, and
primitive/fallback fingerprints are rendered with `str(...)` of the Python
tuple. -/
def fpBytes : FP → String
  | .tensorFP s m mx mn f l =>
      "[\"torch.Tensor\", [" ++
        String.intercalate ", " ([s, m, mx, mn, f, l].map ratStr) ++ "]]"
  | .listFP fps =>
      "[\"list\", [" ++ String.intercalate ", " (fps.map jsonStr) ++ "]]"
  | .tupleFP fps =>
      "[\"tuple\", [" ++ String.intercalate ", " (fps.map jsonStr) ++ "]]"
  | .dictFP entries =>
      "[\"dict\", [" ++
        String.intercalate ", "
          (entries.map fun e => "[" ++ jsonKey e.1 ++ ", " ++ jsonStr e.2 ++ "]")
        ++ "]]"
  | .primFP p => "(\x27primitive\x27, " ++ pyReprPrim p ++ ")"
  | .serFP b => b
  | .unserFP s => "(\x27unserializable_object\x27, \x27" ++ s ++ "\x27)"

/-- SHA-256 hex digest, modelled as an injective deterministic function of
the hashed bytes.  The claims only use determinism (equal bytes give equal
digests); injectivity matches the spec's collision-resistance idealisation. -/
def sha256hex (s : String) : String := "sha256:" ++ s

/-- The per-run identity cache `unique_id_cache`: runtime identity of an
object mapped to its previously computed digest. -/
abbrev Cache := List (Nat × String)

/-- Cache lookup (`obj_id in unique_id_cache`). -/
def lookupC (i : Nat) (c : Cache) : Option String :=
  (c.find? fun e => e.1 = i).map (·.2)

/-- Cache insertion (`unique_id_cache[obj_id] = ...`); keys are fresh in
every run the code performs, so append suffices. -/
def insertC (i : Nat) (h : String) (c : Cache) : Cache := c ++ [(i, h)]

/-- `key1 <= key2` for Python sort; the cross-kind cases are never used
because `pySorted` only sorts when all keys have one kind. -/
def keyLE : PKey → PKey → Prop
  | .kint a, .kint b => a ≤ b
  | .kstr a, .kstr b => a ≤ b
  | .kint _, .kstr _ => True
  | .kstr _, .kint _ => False

instance : DecidableRel keyLE := fun a b => by
  cases a <;> cases b <;> simp [keyLE] <;> infer_instance

/-- Entry order used by `sorted(dct.items())`: compare keys (dict keys are
unique, so Python's tuple comparison never reaches the values). -/
def entryLE (a b : PKey × Nat × Val) : Prop := keyLE a.1 b.1

instance : DecidableRel entryLE := fun a b => by
  unfold entryLE; infer_instance

/-- Whether a dict key is an int key. -/
def isIntKey : PKey → Bool
  | .kint _ => true
  | .kstr _ => false

/-- Whether all keys are mutually comparable: Python 3 `sorted` raises
`TypeError` as soon as an int key meets a str key. -/
def keysComparable (entries : List (PKey × Nat × Val)) : Bool :=
  (entries.all fun e => isIntKey e.1) || (entries.all fun e => !isIntKey e.1)

/-- `sorted(dct.items())` (line 107): the sorted entry list, or `none` when
the comparison raises `TypeError` (mixed int/str keys). -/
def pySorted (entries : List (PKey × Nat × Val)) :
    Option (List (PKey × Nat × Val)) :=
  if keysComparable entries then some (entries.insertionSort entryLE) else none

/-- `tensor_fingerprint` (lines 87-97): hard error on an empty tensor,
otherwise the six summary statistics of the flattened tensor. -/
def tensor_fingerprint (es : List Rat) : Except String FP :=
  match es with
  | [] => .error "Cannot generate unique ID for an empty tensor."
  | e :: t =>
      .ok (.tensorFP (es.foldl (· + ·) 0)
        ((es.foldl (· + ·) 0) / es.length)
        (t.foldl max e) (t.foldl min e)
        e (t.foldl (fun _ x => x) e))

mutual

/-- The classification inside the `try` block of `get_unique_id`
(lines 116-135): builds the tagged fingerprint, threading the identity
cache through recursive child calls.  Errors are the empty-tensor
`ValueError` and the `TypeError` from sorting mixed dict keys; the pickle
failures are caught by the inner handler (line 133) and degrade to the
`unserializable_object` variant without escaping. -/
def fingerprintOf (v : Val) (c : Cache) : Except String (FP × Cache) :=
  match v with
  | .tensor es =>
      match tensor_fingerprint es with
      | .error e => .error e
      | .ok fp => .ok (fp, c)
  | .vlist items =>
      let r := guidItems items c
      .ok (.listFP r.1, r.2)
  | .vtuple items =>
      let r := guidItems items c
      .ok (.tupleFP r.1, r.2)
  | .vdict entries =>
      match hs : pySorted entries with
      | none => .error "unsupported comparison between int and str"
      | some sortedEntries =>
          let r := guidEntries sortedEntries c
          .ok (.dictFP r.1, r.2)
  | .vprim p => .ok (.primFP p, c)
  | .vobj pickled t r =>
      match pickled with
      | some bytes => .ok (.serFP bytes, c)
      | none => .ok (.unserFP (t ++ ":" ++ r), c)
termination_by sizeOf v
decreasing_by
  · simp_wf <;> omega
  · simp_wf <;> omega
  · have h : pySorted entries = some sortedEntries := by assumption
    have hsz : sizeOf sortedEntries = sizeOf entries := by
      unfold pySorted at h
      split at h
      · cases h
        exact (List.perm_insertionSort entryLE entries).sizeOf_eq_sizeOf
      · cases h
    simp_wf <;> omega

/-- `list_fingerprint` / `tuple_fingerprint`: child digests in order,
threading the identity cache. -/
def guidItems (items : List (Nat × Val)) (c : Cache) :
    List String × Cache :=
  match items with
  | [] => ([], c)
  | (i, v) :: t =>
      let r := get_unique_id (i, v) c
      let rt := guidItems t r.2
      (r.1 :: rt.1, rt.2)
termination_by sizeOf items
decreasing_by all_goals (simp_wf <;> omega)

/-- `dict_fingerprint` body: `(key, child digest)` per sorted entry,
threading the identity cache. -/
def guidEntries (entries : List (PKey × Nat × Val)) (c : Cache) :
    List (PKey × String) × Cache :=
  match entries with
  | [] => ([], c)
  | (k, i, v) :: t =>
      let r := get_unique_id (i, v) c
      let rt := guidEntries t r.2
      ((k, r.1) :: rt.1, rt.2)
termination_by sizeOf entries
decreasing_by all_goals (simp_wf <;> omega)

/-- `get_unique_id` (lines 73-163).  Identity-cache hit returns the cached
digest; otherwise the classification runs, its result is hashed and cached;
any classification error is caught by the outer handler (line 158) which
returns and caches the fallback digest of `type_name:str(obj)`.  The
function is total: it never raises to its caller. -/
def get_unique_id (o : Obj) (c : Cache) : String × Cache :=
  match lookupC o.1 c with
  | some h => (h, c)
  | none =>
      match o with
      | (i, v) =>
        match fingerprintOf v c with
        | .ok r =>
            let h := sha256hex (fpBytes r.1)
            (h, insertC i h r.2)
        | .error _ =>
            let h := sha256hex (pyTypeName v ++ ":" ++ pyStrV v)
            (h, insertC i h c)
termination_by sizeOf o
decreasing_by all_goals (simp_wf <;> omega)

end

/-! ## The execution DAG (`networkx.DiGraph`)

Node attributes are Python dict entries, so each is optional: call nodes
get `count`, value nodes get `type`/`id`, and nodes auto-created by
`add_edge` get no attributes at all.  Edge attributes likewise: call and
sibling edges get `weight`/`arg_types` (siblings also `relationship`),
value edges get nothing.  Insertion order is preserved, matching the
iteration order of `DiGraph.successors`. -/

/-- Attributes of a DAG node. -/
structure NodeData where
  count : Option Nat := none
  vtype : Option String := none
  vid : Option String := none
deriving DecidableEq

/-- Attributes of a DAG edge. -/
structure EdgeData where
  weight : Option Nat := none
  arg_types : Option String := none
  relationship : Option String := none
deriving DecidableEq

/-- The execution DAG: nodes and edges in insertion order.  `DiGraph` keeps
at most one edge per ordered pair; `addEdge` preserves that. -/
structure Graph where
  nodes : List (String × NodeData) := []
  edges : List (String × String × EdgeData) := []
deriving DecidableEq

/-- Attribute lookup for a node (`execution_dag.nodes[n]`). -/
def Graph.nodeData (g : Graph) (n : String) : Option NodeData :=
  (g.nodes.find? fun e => e.1 = n).map (·.2)

/-- `n in execution_dag.nodes`. -/
def Graph.hasNode (g : Graph) (n : String) : Bool :=
  (g.nodes.find? fun e => e.1 = n).isSome

/-- `execution_dag.add_node(n, attrs)` on a fresh name (the code always
guards with a membership test first). -/
def Graph.addNode (g : Graph) (n : String) (d : NodeData) : Graph :=
  if g.hasNode n then g else { g with nodes := g.nodes ++ [(n, d)] }

/-- Update the attribute dict of node `n` in place. -/
def Graph.updateNode (g : Graph) (n : String) (f : NodeData → NodeData) :
    Graph :=
  { g with nodes := g.nodes.map fun e => if e.1 = n then (e.1, f e.2) else e }

/-- Attribute lookup for an edge (`execution_dag[u][v]`). -/
def Graph.edgeData (g : Graph) (u v : String) : Option EdgeData :=
  (g.edges.find? fun e => e.1 = u ∧ e.2.1 = v).map (·.2.2)

/-- `execution_dag.has_edge(u, v)` — any edge kind counts. -/
def Graph.hasEdge (g : Graph) (u v : String) : Bool :=
  (g.edges.find? fun e => e.1 = u ∧ e.2.1 = v).isSome

/-- Merge the attribute keys supplied to `add_edge` (the `some` fields)
into an existing edge's attribute dict, keeping its other keys. -/
def mergeED (dNew dOld : EdgeData) : EdgeData :=
  { weight := dNew.weight.elim dOld.weight some,
    arg_types := dNew.arg_types.elim dOld.arg_types some,
    relationship := dNew.relationship.elim dOld.relationship some }

/-- `execution_dag.add_edge(u, v, attrs)`: auto-creates missing endpoint
nodes with an empty attribute dict, then appends a fresh edge or merges
the supplied attributes into the existing edge (keeping its position), as
`DiGraph.add_edge` does. -/
def Graph.addEdge (g : Graph) (u v : String) (d : EdgeData) : Graph :=
  let g1 := (g.addNode u {}).addNode v {}
  if g1.hasEdge u v then
    { g1 with edges := g1.edges.map fun e =>
        if e.1 = u ∧ e.2.1 = v then (e.1, e.2.1, mergeED d e.2.2) else e }
  else { g1 with edges := g1.edges ++ [(u, v, d)] }

/-- Update the attribute dict of edge `u → v` in place. -/
def Graph.updateEdge (g : Graph) (u v : String) (f : EdgeData → EdgeData) :
    Graph :=
  { g with edges := g.edges.map fun e =>
      if e.1 = u ∧ e.2.1 = v then (e.1, e.2.1, f e.2.2) else e }

/-- `list(execution_dag.successors(n))`: targets of edges out of `n`, in
first-insertion order (edges are unique per ordered pair). -/
def Graph.successors (g : Graph) (n : String) : List String :=
  (g.edges.filter fun e => e.1 = n).map (·.2.1)

/-- `execution_dag.in_degree(n)`: number of incoming edges (a self-loop
counts once). -/
def Graph.inDegree (g : Graph) (n : String) : Nat :=
  (g.edges.filter fun e => e.2.1 = n).length

/-- Edges carrying `relationship="sibling"`, as source/target pairs. -/
def Graph.siblingEdges (g : Graph) : List (String × String) :=
  (g.edges.filter fun e => e.2.2.relationship = some "sibling").map
    fun e => (e.1, e.2.1)

/-- Call-count view of the DAG: the nodes carrying a `count` attribute with
its value — value nodes and auto-created nodes are filtered out. -/
def Graph.callCounts (g : Graph) : List (String × Nat) :=
  g.nodes.filterMap fun e => e.2.count.map ((e.1, ·))

/-! ## `log_shape_info` (lines 175-222)

Containers recurse element-by-element; crucially, the recursive call passes
`parent_node=name` — the *container's label*, not the original parent.
Leaves compute a fingerprint and, when a parent label is given (Python
truthiness: non-`None` and non-empty), create the value node
`f"{parent_node}.{name}"` once, linking it from `parent_node`.  All
embedded operations are total, so the broad `except` handler of
lines 209-222 is unreachable in the model. -/

/-- Values `log_shape_info` treats as leaves (everything that is not a
dict, list or tuple). -/
def isLeafVal : Val → Bool
  | .vdict _ => false
  | .vlist _ => false
  | .vtuple _ => false
  | _ => true

mutual

/-- `log_shape_info(name, obj, parent_node)`: returns the updated DAG and
identity cache. -/
def log_shape_info (name : String) (o : Obj) (parent : Option String)
    (g : Graph) (c : Cache) : Graph × Cache :=
  match o with
  | (_, .vdict entries) => logDictItems name entries g c
  | (_, .vlist items) => logSeqItems name 0 items g c
  | (_, .vtuple items) => logSeqItems name 0 items g c
  | (i, v) =>
      let r := get_unique_id (i, v) c
      match parent with
      | none => (g, r.2)
      | some p =>
          if p = "" then (g, r.2)
          else
            let node := p ++ "." ++ name
            if g.hasNode node then (g, r.2)
            else
              ((g.addNode node
                  { vtype := some (pyTypeName v), vid := some r.1 }).addEdge
                p node {}, r.2)
termination_by sizeOf o
decreasing_by all_goals (simp_wf <;> omega)

/-- The dict iteration of line 191: `sub_name = f"{name}[{key}]"`,
recursing with `parent_node = name`. -/
def logDictItems (name : String) (entries : List (PKey × Nat × Val))
    (g : Graph) (c : Cache) : Graph × Cache :=
  match entries with
  | [] => (g, c)
  | (k, i, v) :: t =>
      let r := log_shape_info (name ++ "[" ++ pyStrKey k ++ "]") (i, v)
        (some name) g c
      logDictItems name t r.1 r.2
termination_by sizeOf entries
decreasing_by all_goals (simp_wf <;> omega)

/-- The sequence iteration of line 191 (`enumerate`): `f"{name}[{idx}]"`,
recursing with `parent_node = name`. -/
def logSeqItems (name : String) (idx : Nat) (items : List (Nat × Val))
    (g : Graph) (c : Cache) : Graph × Cache :=
  match items with
  | [] => (g, c)
  | (i, v) :: t =>
      let r := log_shape_info (name ++ "[" ++ toString idx ++ "]") (i, v)
        (some name) g c
      logSeqItems name (idx + 1) t r.1 r.2
termination_by sizeOf items
decreasing_by all_goals (simp_wf <;> omega)

end

/-! ## The instrumented wrapper (`make_trace_function`, lines 224-346)

A traced call is modelled by the data the wrapper extracts from the Python
callable: its qualified name, the results of signature introspection
(`inspect.signature` can raise for some callables — the code catches that
at line 263 but *not* at line 317), and of argument binding.  An execution
is a call tree: the children are the traced calls the wrapped function
makes, in order, and `outcome` is the wrapped function's own result
(`.error` = it raised).  Tracer-internal exceptions (the uncaught
signature error and the `KeyError`s from missing `count`/`weight`
attributes) abort the enclosing calls; the wrapped functions' own errors
flow as the trace dictates. -/

/-- What the wrapper sees of one traced callable and its actual arguments. -/
structure TracedCall where
  qualname : String
  /-- `sig.bind_partial(...).arguments` at line 264 (`none` = it raised,
  caught by the summary handler). -/
  bindPartialArgs : Option (List (String × Obj))
  /-- `sig.bind(...).arguments` at line 319 (`none` = it raised, caught at
  line 323). -/
  bindArgs : Option (List (String × Obj))
  /-- `inspect.signature(func)` raises for this callable. -/
  sigFails : Bool

/-- Python exceptions surfacing from a traced invocation. -/
inductive PyErr where
  | sigError
  | keyError
  | userError (msg : String)
deriving DecidableEq

/-- Tracer-internal errors, as opposed to errors of the wrapped code. -/
def PyErr.isTracer : PyErr → Bool
  | .userError _ => false
  | _ => true

/-- A traced execution: one wrapper invocation, the traced calls the
wrapped function makes while running, and the function's own outcome. -/
inductive CallTree where
  | node (call : TracedCall) (children : List CallTree)
      (outcome : Except String Obj)

/-- The process-wide mutable state of the tracing module. -/
structure TraceState where
  graph : Graph := {}
  stack : List String := []
  counts : List (String × Nat) := []
  idc : Cache := []
  uniqueCalls : Bool := false
deriving DecidableEq

/-- Lookup in a string-keyed association list (a Python dict). -/
def lookupS (n : String) (l : List (String × Nat)) : Option Nat :=
  (l.find? fun e => e.1 = n).map (·.2)

/-- Assignment in a string-keyed association list. -/
def setS (n : String) (v : Nat) (l : List (String × Nat)) :
    List (String × Nat) :=
  if (l.find? fun e => e.1 = n).isSome then
    l.map fun e => if e.1 = n then (n, v) else e
  else l ++ [(n, v)]

/-- Node-name resolution (lines 230-242): in unique-call mode the per-name
counter is read (defaulting to 0) and incremented, and the name gets the
`_k` suffix; otherwise the bare qualified name is used. -/
def resolveNode (base : String) (st : TraceState) : String × TraceState :=
  if st.uniqueCalls then
    let cnt := (lookupS base st.counts).getD 0
    (base ++ "_" ++ toString cnt,
      { st with counts := setS base (cnt + 1) st.counts })
  else (base, st)

/-- Lines 244-250: ensure the node exists (`count=0` when created), then
`nodes[node_name]['count'] += 1`.  Returns `none` for the `KeyError` when
a pre-existing node (e.g. auto-created by `add_edge`) has no `count`. -/
def ensureBump (n : String) (g : Graph) : Option Graph :=
  let g1 := g.addNode n { count := some 0 }
  match g1.nodeData n with
  | some d =>
      match d.count with
      | some cnt =>
          some (g1.updateNode n fun d => { d with count := some (cnt + 1) })
      | none => none
  | none => none

/-- One value's summary in the argument-type string (lines 267-276):
type name, plus `str(tuple(shape))` when the value has a shape, else a
`[len=...]` suffix for sized non-strings. -/
def argSummary1 (v : Val) : String :=
  match v with
  | .tensor es => pyTypeName v ++ "(" ++ toString es.length ++ ",)"
  | .vlist items => pyTypeName v ++ "[len=" ++ toString items.length ++ "]"
  | .vtuple items => pyTypeName v ++ "[len=" ++ toString items.length ++ "]"
  | .vdict entries => pyTypeName v ++ "[len=" ++ toString entries.length ++ "]"
  | v => pyTypeName v

/-- The argument-summary string of lines 261-279: empty when signature
introspection or partial binding raises (the `except` of line 278). -/
def argSummaryOf (f : TracedCall) : String :=
  if f.sigFails then ""
  else
    match f.bindPartialArgs with
    | none => ""
    | some args => String.intercalate "|" (args.map fun a => argSummary1 a.2.2)

/-- Lines 254-308: when a caller is on the stack, snapshot its successors,
add or bump the `caller → node` call edge (bumping raises `KeyError` when
the existing edge has no `weight`), and give the most recent member of the
snapshot a single outgoing sibling edge when it differs from the new node
and *no edge of any kind* `last_sibling → node` exists yet. -/
def callerSection (f : TracedCall) (n : String) (st : TraceState) :
    Option Graph :=
  match st.stack.getLast? with
  | none => some st.graph
  | some caller =>
      let g := st.graph
      let existingChildren := g.successors caller
      let argTypes := argSummaryOf f
      let g1? : Option Graph :=
        if g.hasEdge caller n then
          match g.edgeData caller n with
          | some d =>
              match d.weight with
              | some w =>
                  some (g.updateEdge caller n fun d =>
                    { d with weight := some (w + 1),
                             arg_types := some argTypes })
              | none => none
          | none => none
        else some (g.addEdge caller n
          { weight := some 1, arg_types := some argTypes })
      match g1? with
      | none => none
      | some g1 =>
          match existingChildren.getLast? with
          | none => some g1
          | some lastSibling =>
              if lastSibling ≠ n ∧ ¬ g1.hasEdge lastSibling n then
                some (g1.addEdge lastSibling n
                  { weight := some 1, arg_types := some argTypes,
                    relationship := some "sibling" })
              else some g1

/-- Argument logging (lines 317-324): `inspect.signature` runs unguarded —
if it raises, the exception escapes the wrapper (with the node already
pushed); a failing `sig.bind` is caught and only logged. -/
def logArgs (f : TracedCall) (n : String) (g : Graph) (c : Cache) :
    Graph × Cache :=
  match f.bindArgs with
  | none => (g, c)
  | some args =>
      args.foldl (fun acc a => log_shape_info a.1 a.2 (some n) acc.1 acc.2)
        (g, c)

/-- The prologue of the wrapper, up to and including argument logging
(lines 228-324): name resolution, node ensure/bump, caller edges, stack
push, then signature introspection and argument logging.  Errors return
the state exactly as the corresponding Python exception leaves it — in
particular the uncaught signature error of line 317 leaves the pushed node
on the stack. -/
def enterCall (f : TracedCall) (st : TraceState) :
    Except PyErr String × TraceState :=
  let r := resolveNode f.qualname st
  let n := r.1
  let st1 := r.2
  match ensureBump n st1.graph with
  | none => (.error .keyError, st1)
  | some g2 =>
      match callerSection f n { st1 with graph := g2 } with
      | none => (.error .keyError, { st1 with graph := g2 })
      | some g3 =>
          let st2 := { st1 with graph := g3, stack := st1.stack ++ [n] }
          if f.sigFails then (.error .sigError, st2)
          else
            let la := logArgs f n st2.graph st2.idc
            (.ok n, { st2 with graph := la.1, idc := la.2 })

/-- `call_stack.pop()` of the `finally` block (line 344). -/
def popStack (st : TraceState) : TraceState :=
  { st with stack := st.stack.dropLast }

/-- Output logging (lines 330-339): mapping/sequence results are logged
element-by-element with `Output[...]` labels and `parent_node = node`, any
other result as a single `Output` value. -/
def logOutputs (n : String) (o : Obj) (g : Graph) (c : Cache) :
    Graph × Cache :=
  match o with
  | (_, .vdict entries) =>
      entries.foldl
        (fun acc e =>
          log_shape_info ("Output[" ++ pyStrKey e.1 ++ "]") (e.2.1, e.2.2)
            (some n) acc.1 acc.2)
        (g, c)
  | (_, .vlist items) =>
      (items.foldl
        (fun acc it =>
          (log_shape_info ("Output[" ++ toString acc.2 ++ "]") it (some n)
              acc.1.1 acc.1.2, acc.2 + 1))
        ((g, c), 0)).1
  | (_, .vtuple items) =>
      (items.foldl
        (fun acc it =>
          (log_shape_info ("Output[" ++ toString acc.2 ++ "]") it (some n)
              acc.1.1 acc.1.2, acc.2 + 1))
        ((g, c), 0)).1
  | obj => log_shape_info "Output" obj (some n) g c

mutual

/-- One invocation of the instrumented wrapper (lines 228-345): prologue,
execution of the wrapped function (its traced children run in order; a
tracer-internal exception raised by a nested wrapper aborts it), output
logging on normal return, and the guaranteed `finally` pop — which runs
exactly when the `try` of line 326 was entered, i.e. not on the uncaught
signature error of line 317. -/
def runCall (t : CallTree) (st : TraceState) :
    Except PyErr Obj × TraceState :=
  match t with
  | .node f children outcome =>
      let r := enterCall f st
      match r.1 with
      | .error e => (.error e, r.2)
      | .ok n =>
          let rc := runChildren children r.2
          match rc.1 with
          | some e => (.error e, popStack rc.2)
          | none =>
              match outcome with
              | .ok v =>
                  let lo := logOutputs n v rc.2.graph rc.2.idc
                  (.ok v, popStack { rc.2 with graph := lo.1, idc := lo.2 })
              | .error msg => (.error (.userError msg), popStack rc.2)
termination_by sizeOf t
decreasing_by all_goals (simp_wf <;> omega)

/-- The traced calls the wrapped function makes, in order.  A tracer
error from a nested wrapper propagates (`some e`); the wrapped children's
own errors are part of the traced control flow and the trace continues. -/
def runChildren (ts : List CallTree) (st : TraceState) :
    Option PyErr × TraceState :=
  match ts with
  | [] => (none, st)
  | c :: rest =>
      let r := runCall c st
      match r.1 with
      | .error e =>
          if e.isTracer then (some e, r.2) else runChildren rest r.2
      | .ok _ => runChildren rest r.2
termination_by sizeOf ts
decreasing_by all_goals (simp_wf <;> omega)

end

/-! ## Fuel-indexed structural mirrors

The wrapper's functions recurse over nested inductives, so Lean compiles
them by well-founded recursion and the kernel cannot evaluate them on
concrete traces.  The following mirrors recurse structurally on an
explicit fuel parameter instead; the `_eq` bridge theorems below show
that any fuel of at least the relevant `sizeOf` computes the original
function, so concrete executions can be settled by `decide`. -/

mutual

/-- Fuel mirror of `get_unique_id`. -/
def get_unique_idF : Nat → Obj → Cache → String × Cache
  | 0, _, c => ("", c)
  | fuel + 1, (i, v), c =>
      match lookupC i c with
      | some h => (h, c)
      | none =>
          match fingerprintOfF fuel v c with
          | .ok r =>
              let h := sha256hex (fpBytes r.1)
              (h, insertC i h r.2)
          | .error _ =>
              let h := sha256hex (pyTypeName v ++ ":" ++ pyStrV v)
              (h, insertC i h c)

/-- Fuel mirror of `fingerprintOf`. -/
def fingerprintOfF : Nat → Val → Cache → Except String (FP × Cache)
  | 0, _, _ => .error "out of fuel"
  | fuel + 1, v, c =>
      match v with
      | .tensor es =>
          match tensor_fingerprint es with
          | .error e => .error e
          | .ok fp => .ok (fp, c)
      | .vlist items =>
          let r := guidItemsF fuel items c
          .ok (.listFP r.1, r.2)
      | .vtuple items =>
          let r := guidItemsF fuel items c
          .ok (.tupleFP r.1, r.2)
      | .vdict entries =>
          match pySorted entries with
          | none => .error "unsupported comparison between int and str"
          | some sortedEntries =>
              let r := guidEntriesF fuel sortedEntries c
              .ok (.dictFP r.1, r.2)
      | .vprim p => .ok (.primFP p, c)
      | .vobj pickled t r =>
          match pickled with
          | some bytes => .ok (.serFP bytes, c)
          | none => .ok (.unserFP (t ++ ":" ++ r), c)

/-- Fuel mirror of `guidItems`. -/
def guidItemsF : Nat → List (Nat × Val) → Cache → List String × Cache
  | 0, _, c => ([], c)
  | fuel + 1, items, c =>
      match items with
      | [] => ([], c)
      | (i, v) :: t =>
          let r := get_unique_idF fuel (i, v) c
          let rt := guidItemsF fuel t r.2
          (r.1 :: rt.1, rt.2)

/-- Fuel mirror of `guidEntries`. -/
def guidEntriesF : Nat → List (PKey × Nat × Val) → Cache →
    List (PKey × String) × Cache
  | 0, _, c => ([], c)
  | fuel + 1, entries, c =>
      match entries with
      | [] => ([], c)
      | (k, i, v) :: t =>
          let r := get_unique_idF fuel (i, v) c
          let rt := guidEntriesF fuel t r.2
          ((k, r.1) :: rt.1, rt.2)

end

mutual

/-- Fuel mirror of `log_shape_info`. -/
def log_shape_infoF : Nat → String → Obj → Option String → Graph →
    Cache → Graph × Cache
  | 0, _, _, _, g, c => (g, c)
  | fuel + 1, name, o, parent, g, c =>
      match o with
      | (_, .vdict entries) => logDictItemsF fuel name entries g c
      | (_, .vlist items) => logSeqItemsF fuel name 0 items g c
      | (_, .vtuple items) => logSeqItemsF fuel name 0 items g c
      | (i, v) =>
          let r := get_unique_idF (fuel + 1) (i, v) c
          match parent with
          | none => (g, r.2)
          | some p =>
              if p = "" then (g, r.2)
              else
                let node := p ++ "." ++ name
                if g.hasNode node then (g, r.2)
                else
                  ((g.addNode node
                      { vtype := some (pyTypeName v),
                        vid := some r.1 }).addEdge p node {}, r.2)

/-- Fuel mirror of `logDictItems`. -/
def logDictItemsF : Nat → String → List (PKey × Nat × Val) → Graph →
    Cache → Graph × Cache
  | 0, _, _, g, c => (g, c)
  | fuel + 1, name, entries, g, c =>
      match entries with
      | [] => (g, c)
      | (k, i, v) :: t =>
          let r := log_shape_infoF fuel (name ++ "[" ++ pyStrKey k ++ "]")
            (i, v) (some name) g c
          logDictItemsF fuel name t r.1 r.2

/-- Fuel mirror of `logSeqItems`. -/
def logSeqItemsF : Nat → String → Nat → List (Nat × Val) → Graph →
    Cache → Graph × Cache
  | 0, _, _, _, g, c => (g, c)
  | fuel + 1, name, idx, items, g, c =>
      match items with
      | [] => (g, c)
      | (i, v) :: t =>
          let r := log_shape_infoF fuel (name ++ "[" ++ toString idx ++ "]")
            (i, v) (some name) g c
          logSeqItemsF fuel name (idx + 1) t r.1 r.2

end

/-- Fuel mirror of `logArgs`. -/
def logArgsF (fuel : Nat) (f : TracedCall) (n : String) (g : Graph)
    (c : Cache) : Graph × Cache :=
  match f.bindArgs with
  | none => (g, c)
  | some args =>
      args.foldl (fun acc a => log_shape_infoF fuel a.1 a.2 (some n)
        acc.1 acc.2) (g, c)

/-- Fuel mirror of `logOutputs`. -/
def logOutputsF (fuel : Nat) (n : String) (o : Obj) (g : Graph)
    (c : Cache) : Graph × Cache :=
  match o with
  | (_, .vdict entries) =>
      entries.foldl
        (fun acc e =>
          log_shape_infoF fuel ("Output[" ++ pyStrKey e.1 ++ "]")
            (e.2.1, e.2.2) (some n) acc.1 acc.2)
        (g, c)
  | (_, .vlist items) =>
      (items.foldl
        (fun acc it =>
          (log_shape_infoF fuel ("Output[" ++ toString acc.2 ++ "]") it
              (some n) acc.1.1 acc.1.2, acc.2 + 1))
        ((g, c), 0)).1
  | (_, .vtuple items) =>
      (items.foldl
        (fun acc it =>
          (log_shape_infoF fuel ("Output[" ++ toString acc.2 ++ "]") it
              (some n) acc.1.1 acc.1.2, acc.2 + 1))
        ((g, c), 0)).1
  | obj => log_shape_infoF fuel "Output" obj (some n) g c

/-- Fuel mirror of `enterCall`. -/
def enterCallF (fuel : Nat) (f : TracedCall) (st : TraceState) :
    Except PyErr String × TraceState :=
  let r := resolveNode f.qualname st
  let n := r.1
  let st1 := r.2
  match ensureBump n st1.graph with
  | none => (.error .keyError, st1)
  | some g2 =>
      match callerSection f n { st1 with graph := g2 } with
      | none => (.error .keyError, { st1 with graph := g2 })
      | some g3 =>
          let st2 := { st1 with graph := g3, stack := st1.stack ++ [n] }
          if f.sigFails then (.error .sigError, st2)
          else
            let la := logArgsF fuel f n st2.graph st2.idc
            (.ok n, { st2 with graph := la.1, idc := la.2 })

mutual

/-- Fuel mirror of `runCall`. -/
def runCallF : Nat → CallTree → TraceState →
    Except PyErr Obj × TraceState
  | 0, _, st => (.error (.userError "out of fuel"), st)
  | fuel + 1, .node f children outcome, st =>
      let r := enterCallF fuel f st
      match r.1 with
      | .error e => (.error e, r.2)
      | .ok n =>
          let rc := runChildrenF fuel children r.2
          match rc.1 with
          | some e => (.error e, popStack rc.2)
          | none =>
              match outcome with
              | .ok v =>
                  let lo := logOutputsF fuel n v rc.2.graph rc.2.idc
                  (.ok v, popStack { rc.2 with graph := lo.1, idc := lo.2 })
              | .error msg => (.error (.userError msg), popStack rc.2)

/-- Fuel mirror of `runChildren`. -/
def runChildrenF : Nat → List CallTree → TraceState →
    Option PyErr × TraceState
  | 0, _, st => (some (.userError "out of fuel"), st)
  | fuel + 1, [], st => (none, st)
  | fuel + 1, c :: rest, st =>
      let r := runCallF fuel c st
      match r.1 with
      | .error e =>
          if e.isTracer then (some e, r.2) else runChildrenF fuel rest r.2
      | .ok _ => runChildrenF fuel rest r.2

end

/-- The wrapped function's own behaviour as an `Except PyErr` result: what
a transparent wrapper must return. -/
def declared : CallTree → Except PyErr Obj
  | .node _ _ (.ok v) => .ok v
  | .node _ _ (.error msg) => .error (.userError msg)

mutual

/-- Signature introspection succeeds for every traced call in the tree. -/
def allSigOk : CallTree → Bool
  | .node f children _ => !f.sigFails && allSigOkL children
termination_by t => sizeOf t

/-- `allSigOk` for each tree in a list. -/
def allSigOkL : List CallTree → Bool
  | [] => true
  | c :: rest => allSigOk c && allSigOkL rest
termination_by ts => sizeOf ts

end

/-! ## `assign_levels` (lines 427-443)

The layered traversal: start from all in-degree-zero nodes at level 0;
each pass assigns the current level to every frontier member
(unconditionally — a node processed again at a deeper level is
*overwritten*) and appends every successor not yet in `levels` to the next
frontier.  The Python `while` loop is modelled with explicit fuel; the
fuel-irrelevance theorem below shows `2 * |nodes| + 2` passes always
suffice, i.e. the loop terminates. -/

/-- One pass of the `while` loop body (lines 434-440). -/
def processLevel (g : Graph) (lvl : Nat) :
    List (String × Nat) → List String → List (String × Nat) × List String
  | levels, [] => (levels, [])
  | levels, n :: rest =>
      let levels1 := setS n lvl levels
      let fresh := (g.successors n).filter fun s => (lookupS s levels1).isNone
      let r := processLevel g lvl levels1 rest
      (r.1, fresh ++ r.2)

/-- The in-degree-zero nodes, in node order (line 432). -/
def Graph.roots (g : Graph) : List String :=
  (g.nodes.map (·.1)).filter fun n => g.inDegree n = 0

/-- The `while nodes_at_current_level:` loop, with fuel. -/
def assignLoop (g : Graph) :
    Nat → List (String × Nat) → List String → Nat → List (String × Nat)
  | 0, levels, _, _ => levels
  | fuel + 1, levels, current, lvl =>
      match current with
      | [] => levels
      | _ =>
          let r := processLevel g lvl levels current
          assignLoop g fuel r.1 r.2 (lvl + 1)

/-- `assign_levels(dag)`: fuel `2 * |nodes| + 2` always reaches the empty
frontier (proved below), so this is the Python loop's result. -/
def assign_levels (g : Graph) : List (String × Nat) :=
  assignLoop g (2 * g.nodes.length + 2) [] g.roots 0

/-- Every edge endpoint is a node — `networkx.DiGraph` guarantees this
(`add_edge` creates missing endpoints), so every graph the tracer builds
satisfies it. -/
def EdgesClosed (g : Graph) : Prop :=
  ∀ e ∈ g.edges, e.1 ∈ g.nodes.map (·.1) ∧ e.2.1 ∈ g.nodes.map (·.1)

instance (g : Graph) : Decidable (EdgesClosed g) := by
  unfold EdgesClosed
  infer_instance

/-- The number of graph nodes still missing from the level assignment;
the traversal's termination measure. -/
def countMissing (g : Graph) (levels : List (String × Nat)) : Nat :=
  (g.nodes.map (·.1)).countP fun n => (lookupS n levels).isNone

/-! ## Concrete scenarios used by the claims -/

/-- A zero-argument traced callable with well-behaved introspection. -/
def plainCall (name : String) : TracedCall :=
  { qualname := name, bindPartialArgs := some [], bindArgs := some [],
    sigFails := false }

/-- A traced call with no traced children, returning `out`. -/
def leafCall (name : String) (out : Obj) : CallTree :=
  .node (plainCall name) [] (.ok out)

/-- A small return value shared by the scenarios. -/
def retObj : Obj := (9, .vprim (.pint 3))

/-- One traced invocation of a function `f`. -/
def fTree : CallTree := leafCall "f" retObj

/-- Three successive top-level invocations of `f`. -/
def threeCalls (st : TraceState) : TraceState :=
  (runCall fTree ((runCall fTree ((runCall fTree st).2)).2)).2

/-- A traced callable for which `inspect.signature` raises. -/
def badSigCall : TracedCall :=
  { qualname := "g", bindPartialArgs := none, bindArgs := none,
    sigFails := true }

/-- A traced invocation of the bad-signature callable; the wrapped function
itself would return `retObj` normally. -/
def badSigTree : CallTree := .node badSigCall [] (.ok retObj)

/-- Caller `p` taking one integer argument `x`, then invoking children
`c1`, `c2`, `c3` in that order. -/
def treeWithArg : CallTree :=
  .node
    { qualname := "p",
      bindPartialArgs := some [("x", (50, .vprim (.pint 7)))],
      bindArgs := some [("x", (50, .vprim (.pint 7)))], sigFails := false }
    [leafCall "c1" retObj, leafCall "c2" retObj, leafCall "c3" retObj]
    (.ok retObj)

/-- Zero-argument caller `p` invoking children `c1`, `c2`, `c3` in order. -/
def treeNoArg : CallTree :=
  .node (plainCall "p")
    [leafCall "c1" retObj, leafCall "c2" retObj, leafCall "c3" retObj]
    (.ok retObj)

/-- Caller `p` first invoking `a` (which itself invokes `b`), then
invoking `b` directly — so when `b` begins as `p`'s second child, the
snapshot's last member is `a` and a *call* edge `a → b` already exists. -/
def treeNested : CallTree :=
  .node (plainCall "p")
    [.node (plainCall "a") [leafCall "b" retObj] (.ok retObj),
     leafCall "b" retObj]
    (.ok retObj)

/-- The diamond `r → a`, `r → s`, `a → s`: `s` is first discovered at
level 1 (as a direct successor of the root) but re-processed at level 2. -/
def diamondG : Graph :=
  { nodes := [("r", {}), ("a", {}), ("s", {})],
    edges := [("r", "a", {}), ("r", "s", {}), ("a", "s", {})] }

/-- A single node carrying only a self-loop: it has in-degree 1, so the
traversal never starts from it and it is never reached. -/
def selfLoopG : Graph :=
  { nodes := [("x", {})], edges := [("x", "x", {})] }

mutual

/-- All runtime-identity keys occurring in an object (its own and those of
every nested sub-object), in preorder. -/
def objIds : Obj → List Nat
  | (i, v) => i :: valIds v

/-- The identity keys of the sub-objects of a value. -/
def valIds : Val → List Nat
  | .vlist items => itemIds items
  | .vtuple items => itemIds items
  | .vdict entries => entryIds entries
  | _ => []
termination_by v => sizeOf v

/-- The identity keys occurring in a sequence of items. -/
def itemIds : List (Nat × Val) → List Nat
  | [] => []
  | (i, v) :: t => (i :: valIds v) ++ itemIds t
termination_by l => sizeOf l

/-- The identity keys occurring in a list of dict entries. -/
def entryIds : List (PKey × Nat × Val) → List Nat
  | [] => []
  | (_, i, v) :: t => (i :: valIds v) ++ entryIds t
termination_by l => sizeOf l

end

/-- The tracing state of `treeNested` just before `p`'s second child `b`
begins: `p` has been entered and the subtree rooted at `a` has completed. -/
def treeNestedMid : TraceState :=
  (runCall (.node (plainCall "a") [leafCall "b" retObj] (.ok retObj))
    (enterCall (plainCall "p") {}).2).2

/-- A caller `p` on the stack whose only recorded successor is the earlier
child `a`; used to witness the sibling-creation rule. -/
def stWitness : TraceState :=
  { graph :=
      { nodes := [("p", { count := some 1 }), ("a", { count := some 1 })],
        edges := [("p", "a", { weight := some 1, arg_types := some "" })] },
    stack := ["p"] }

/-! ## Helper lemmas -/

instance : IsTotal (PKey × Nat × Val) entryLE where
  total a b := by
    obtain ⟨ka, a2⟩ := a
    obtain ⟨kb, b2⟩ := b
    unfold entryLE
    cases ka <;> cases kb <;> simp only [keyLE] <;>
      first | exact Int.le_total _ _ | exact le_total _ _ | simp

instance : IsTrans (PKey × Nat × Val) entryLE where
  trans a b c hab hbc := by
    obtain ⟨ka, a2⟩ := a
    obtain ⟨kb, b2⟩ := b
    obtain ⟨kc, c2⟩ := c
    unfold entryLE at hab hbc ⊢
    cases ka <;> cases kb <;> cases kc <;> simp only [keyLE] at hab hbc ⊢ <;>
      first | exact le_trans hab hbc | trivial

/-- Python key comparison is antisymmetric on the comparable kinds. -/
theorem keyLE_antisymm {x y : PKey} (hxy : keyLE x y) (hyx : keyLE y x) :
    x = y := by
  cases x <;> cases y <;> simp only [keyLE] at hxy hyx <;>
    first
      | exact congrArg PKey.kint (le_antisymm hxy hyx)
      | exact congrArg PKey.kstr (le_antisymm hxy hyx)

/-- Sorting a dict's entries is insensitive to their insertion order, as
long as the keys are distinct (as dict keys are). -/
theorem pySorted_perm_eq {l1 l2 : List (PKey × Nat × Val)} (hperm : l1.Perm l2)
    (hnd : (l1.map (·.1)).Nodup) : pySorted l1 = pySorted l2 := by
  have hall : ∀ p : (PKey × Nat × Val) → Bool, l1.all p = l2.all p := by
    intro p
    cases h : l2.all p
    · rw [List.all_eq_false] at h ⊢
      obtain ⟨x, hx, hpx⟩ := h
      exact ⟨x, hperm.mem_iff.mpr hx, hpx⟩
    · rw [List.all_eq_true] at h ⊢
      exact fun x hx => h x (hperm.subset hx)
  have hcompiff : keysComparable l1 = keysComparable l2 := by
    unfold keysComparable
    rw [hall, hall]
  by_cases hc : keysComparable l1 = true
  · have hc2 : keysComparable l2 = true := hcompiff ▸ hc
    have hsorteq : l1.insertionSort entryLE = l2.insertionSort entryLE := by
      apply List.Perm.eq_of_sorted ?w ?s1 ?s2 ?p
      case s1 => exact List.sorted_insertionSort entryLE l1
      case s2 => exact List.sorted_insertionSort entryLE l2
      case p =>
        exact (List.perm_insertionSort entryLE l1).trans
          (hperm.trans (List.perm_insertionSort entryLE l2).symm)
      case w =>
        intro a b ha hb hab hba
        unfold entryLE at hab hba
        have hk : a.1 = b.1 := keyLE_antisymm hab hba
        have ha1 : a ∈ l1 := (List.mem_insertionSort entryLE).mp ha
        have hb1 : b ∈ l1 :=
          hperm.mem_iff.mpr ((List.mem_insertionSort entryLE).mp hb)
        exact List.inj_on_of_nodup_map hnd ha1 hb1 hk
    simp [pySorted, hc, hc2, hsorteq]
  · have hc1 : keysComparable l1 = false := by simpa using hc
    have hc2 : keysComparable l2 = false := hcompiff ▸ hc1
    simp [pySorted, hc1, hc2]

/-- The cache-miss unfolding of `get_unique_id`. -/
theorem get_unique_id_not_cached (i : Nat) (v : Val) (c : Cache)
    (h : lookupC i c = none) :
    get_unique_id (i, v) c =
      match fingerprintOf v c with
      | .ok r => (sha256hex (fpBytes r.1), insertC i (sha256hex (fpBytes r.1)) r.2)
      | .error _ =>
          (sha256hex (pyTypeName v ++ ":" ++ pyStrV v),
            insertC i (sha256hex (pyTypeName v ++ ":" ++ pyStrV v)) c) := by
  simp [get_unique_id, h]

/-- The dict branch of the classifier, stated with a non-dependent match. -/
theorem fingerprintOf_vdict (l : List (PKey × Nat × Val)) (c : Cache) :
    fingerprintOf (.vdict l) c =
      match pySorted l with
      | none => .error "unsupported comparison between int and str"
      | some s => .ok (.dictFP (guidEntries s c).1, (guidEntries s c).2) := by
  simp only [fingerprintOf]
  split <;> rename_i hs <;> rw [hs]

/-- Adding a node never touches the edge list. -/
theorem Graph.addNode_edges (g : Graph) (n : String) (d : NodeData) :
    (g.addNode n d).edges = g.edges := by
  unfold Graph.addNode
  split <;> rfl

/-- Updating a node never touches the edge list. -/
theorem Graph.updateNode_edges (g : Graph) (n : String) (f : NodeData → NodeData) :
    (g.updateNode n f).edges = g.edges := rfl

/-- Sibling edges only depend on the edge list. -/
theorem Graph.siblingEdges_of_edges {g g' : Graph} (h : g'.edges = g.edges) :
    g'.siblingEdges = g.siblingEdges := by
  unfold Graph.siblingEdges
  rw [h]

/-- Edge presence only depends on the edge list. -/
theorem Graph.hasEdge_of_edges {g g' : Graph} (h : g'.edges = g.edges)
    (u v : String) : g'.hasEdge u v = g.hasEdge u v := by
  unfold Graph.hasEdge
  rw [h]

/-- Successor lists only depend on the edge list. -/
theorem Graph.successors_of_edges {g g' : Graph} (h : g'.edges = g.edges)
    (n : String) : g'.successors n = g.successors n := by
  unfold Graph.successors
  rw [h]

/-- A per-edge rewrite that keeps source, target and `relationship` keeps
the sibling-edge list. -/
theorem siblingEdges_map_keep (l : List (String × String × EdgeData))
    (F : String × String × EdgeData → String × String × EdgeData)
    (hF : ∀ e, (F e).1 = e.1 ∧ (F e).2.1 = e.2.1 ∧
      (F e).2.2.relationship = e.2.2.relationship) :
    ((l.map F).filter fun e => e.2.2.relationship = some "sibling").map
        (fun e => (e.1, e.2.1)) =
      (l.filter fun e => e.2.2.relationship = some "sibling").map
        (fun e => (e.1, e.2.1)) := by
  induction l with
  | nil => rfl
  | cons e t ih =>
      obtain ⟨h1, h2, h3⟩ := hF e
      simp only [List.map_cons, List.filter_cons, h3]
      split
      · simp only [List.map_cons, h1, h2, ih]
      · exact ih

/-- `ensure`/bump (lines 244-250) touches only node attributes. -/
theorem ensureBump_edges {n : String} {g g' : Graph}
    (h : ensureBump n g = some g') : g'.edges = g.edges := by
  simp only [ensureBump] at h
  split at h
  · split at h
    · cases h
      rw [Graph.updateNode_edges, Graph.addNode_edges]
    · cases h
  · cases h

/-- `add_edge` with attributes not containing `relationship` (call edges
and value edges) never changes the sibling-edge list. -/
theorem siblingEdges_addEdge_none (g : Graph) (u v : String) (d : EdgeData)
    (hd : d.relationship = none) :
    (g.addEdge u v d).siblingEdges = g.siblingEdges := by
  unfold Graph.siblingEdges
  simp only [Graph.addEdge]
  have he : ((g.addNode u {}).addNode v {}).edges = g.edges := by
    rw [Graph.addNode_edges, Graph.addNode_edges]
  split
  · simp only [he]
    exact siblingEdges_map_keep _ _ fun e => by
      split
      · exact ⟨rfl, rfl, by simp [mergeED, hd]⟩
      · exact ⟨rfl, rfl, rfl⟩
  · simp only [he, List.filter_append, List.map_append]
    simp [hd]

/-- `add_edge` on a fresh pair appends exactly the new edge; if it carries
`relationship="sibling"` the sibling-edge list gains exactly that pair. -/
theorem siblingEdges_addEdge_fresh (g : Graph) (u v : String) (d : EdgeData)
    (hfresh : g.hasEdge u v = false) :
    (g.addEdge u v d).siblingEdges = g.siblingEdges ++
      (if d.relationship = some "sibling" then [(u, v)] else []) := by
  unfold Graph.siblingEdges
  simp only [Graph.addEdge]
  have he : ((g.addNode u {}).addNode v {}).edges = g.edges := by
    rw [Graph.addNode_edges, Graph.addNode_edges]
  have hh : ((g.addNode u {}).addNode v {}).hasEdge u v = false := by
    rw [Graph.hasEdge_of_edges he]
    exact hfresh
  rw [hh]
  simp only [Bool.false_eq_true, if_false, he, List.filter_append,
    List.map_append]
  split <;> simp_all

/-- Updating an edge's `weight`/`arg_types` (line 286-287) keeps the
sibling-edge list. -/
theorem siblingEdges_updateEdge_weight (g : Graph) (u v : String)
    (w : Nat) (a : String) :
    (g.updateEdge u v fun d =>
      { d with weight := some w, arg_types := some a }).siblingEdges =
      g.siblingEdges := by
  unfold Graph.updateEdge Graph.siblingEdges
  exact siblingEdges_map_keep _ _ fun e => by
    split
    · exact ⟨rfl, rfl, rfl⟩
    · exact ⟨rfl, rfl, rfl⟩

/-- `find?`-presence is stable under a per-element rewrite that preserves
the predicate. -/
theorem find?_isSome_map_keep {X : Type} (l : List X) (F : X → X)
    (p : X → Bool) (hF : ∀ e, p (F e) = p e) :
    (List.find? p (l.map F)).isSome = (List.find? p l).isSome := by
  induction l with
  | nil => rfl
  | cons e t ih =>
      rw [List.map_cons, List.find?_cons, List.find?_cons, hF e]
      cases hp : p e
      · exact ih
      · rfl

/-- Edge presence for a pair other than `(u, v)` is unchanged by
`add_edge(u, v, ...)`. -/
theorem hasEdge_addEdge_other (g : Graph) (u v a b : String) (d : EdgeData)
    (hne : ¬(a = u ∧ b = v)) :
    (g.addEdge u v d).hasEdge a b = g.hasEdge a b := by
  unfold Graph.hasEdge
  simp only [Graph.addEdge]
  have he : ((g.addNode u {}).addNode v {}).edges = g.edges := by
    rw [Graph.addNode_edges, Graph.addNode_edges]
  split
  · simp only [he]
    exact find?_isSome_map_keep _ _ _ fun e => by
      split <;> simp
  · simp only [he, List.find?_append]
    have hp : (fun e : String × String × EdgeData =>
        decide (e.1 = a ∧ e.2.1 = b)) (u, v, d) = false := by
      simp only [decide_eq_false_iff_not]
      rintro ⟨h1, h2⟩
      exact hne ⟨h1.symm, h2.symm⟩
    cases hfind : List.find? (fun e : String × String × EdgeData =>
        decide (e.1 = a ∧ e.2.1 = b)) g.edges <;>
      simp [List.find?, hp, hfind, Option.orElse]

mutual

/-- Value logging only adds value edges (no `relationship` key), so it
never changes the sibling-edge list. -/
theorem log_shape_info_sibling (name : String) (o : Obj) (p : Option String)
    (g : Graph) (c : Cache) :
    (log_shape_info name o p g c).1.siblingEdges = g.siblingEdges := by
  obtain ⟨i, v⟩ := o
  cases v with
  | vdict entries =>
      simp only [log_shape_info]
      exact logDictItems_sibling name entries g c
  | vlist items =>
      simp only [log_shape_info]
      exact logSeqItems_sibling name 0 items g c
  | vtuple items =>
      simp only [log_shape_info]
      exact logSeqItems_sibling name 0 items g c
  | tensor es =>
      simp only [log_shape_info.eq_def]
      split
      · rfl
      · split
        · rfl
        · split
          · rfl
          · rw [siblingEdges_addEdge_none]
            · exact Graph.siblingEdges_of_edges (Graph.addNode_edges _ _ _)
            · rfl
  | vprim pr =>
      simp only [log_shape_info.eq_def]
      split
      · rfl
      · split
        · rfl
        · split
          · rfl
          · rw [siblingEdges_addEdge_none]
            · exact Graph.siblingEdges_of_edges (Graph.addNode_edges _ _ _)
            · rfl
  | vobj pk t r =>
      simp only [log_shape_info.eq_def]
      split
      · rfl
      · split
        · rfl
        · split
          · rfl
          · rw [siblingEdges_addEdge_none]
            · exact Graph.siblingEdges_of_edges (Graph.addNode_edges _ _ _)
            · rfl
termination_by sizeOf o

/-- `logDictItems` preserves the sibling-edge list. -/
theorem logDictItems_sibling (name : String)
    (entries : List (PKey × Nat × Val)) (g : Graph) (c : Cache) :
    (logDictItems name entries g c).1.siblingEdges = g.siblingEdges := by
  cases entries with
  | nil => simp only [logDictItems]
  | cons e t =>
      obtain ⟨k, i, v⟩ := e
      simp only [logDictItems]
      rw [logDictItems_sibling name t _ _, log_shape_info_sibling]
termination_by sizeOf entries

/-- `logSeqItems` preserves the sibling-edge list. -/
theorem logSeqItems_sibling (name : String) (idx : Nat)
    (items : List (Nat × Val)) (g : Graph) (c : Cache) :
    (logSeqItems name idx items g c).1.siblingEdges = g.siblingEdges := by
  cases items with
  | nil => simp only [logSeqItems]
  | cons e t =>
      obtain ⟨i, v⟩ := e
      simp only [logSeqItems]
      rw [logSeqItems_sibling name (idx + 1) t _ _, log_shape_info_sibling]
termination_by sizeOf items

end

/-- Argument logging (a fold of `log_shape_info`) preserves the
sibling-edge list. -/
theorem logArgs_sibling (f : TracedCall) (n : String) (g : Graph)
    (c : Cache) : (logArgs f n g c).1.siblingEdges = g.siblingEdges := by
  unfold logArgs
  cases f.bindArgs with
  | none => rfl
  | some args =>
      induction args generalizing g c with
      | nil => rfl
      | cons a t ih =>
          simp only [List.foldl_cons]
          rw [ih]
          exact log_shape_info_sibling a.1 a.2 (some n) g c

/-- Name resolution only touches the per-name counters. -/
theorem resolveNode_state (base : String) (st : TraceState) :
    (resolveNode base st).2.graph = st.graph ∧
      (resolveNode base st).2.stack = st.stack ∧
      (resolveNode base st).2.idc = st.idc ∧
      (resolveNode base st).2.uniqueCalls = st.uniqueCalls := by
  unfold resolveNode
  split <;> exact ⟨rfl, rfl, rfl, rfl⟩

/-- Edge presence is unchanged by an in-place attribute update. -/
theorem hasEdge_updateEdge (g : Graph) (u v a b : String)
    (F : EdgeData → EdgeData) :
    (g.updateEdge u v F).hasEdge a b = g.hasEdge a b := by
  unfold Graph.updateEdge Graph.hasEdge
  exact find?_isSome_map_keep _ _ _ fun e => by
    split <;> rfl

/-- Any sibling edge present after the caller section was either already
present or runs from the last member of the pre-step successor snapshot to
the new node. -/
theorem callerSection_sibling_sub (f : TracedCall) (n : String)
    (st : TraceState) (g3 : Graph) (h : callerSection f n st = some g3) :
    ∀ e ∈ g3.siblingEdges, e ∈ st.graph.siblingEdges ∨
      (∃ caller, st.stack.getLast? = some caller ∧
        (st.graph.successors caller).getLast? = some e.1 ∧ e.2 = n) := by
  intro e he
  simp only [callerSection] at h
  split at h
  · cases h
    exact .inl he
  · rename_i caller hc
    have hsub : ∀ g1 : Graph, g1.siblingEdges = st.graph.siblingEdges →
        (match (st.graph.successors caller).getLast? with
          | none => some g1
          | some lastSibling =>
              if lastSibling ≠ n ∧ ¬ g1.hasEdge lastSibling n then
                some (g1.addEdge lastSibling n
                  { weight := some 1, arg_types := some (argSummaryOf f),
                    relationship := some "sibling" })
              else some g1) = some g3 →
        e ∈ st.graph.siblingEdges ∨
          (∃ caller, st.stack.getLast? = some caller ∧
            (st.graph.successors caller).getLast? = some e.1 ∧ e.2 = n) := by
      intro g1 hg1 hm
      split at hm
      · cases hm
        exact .inl (hg1 ▸ he)
      · rename_i ls hls
        split at hm
        · rename_i hcond
          cases hm
          rw [siblingEdges_addEdge_fresh _ _ _ _
              (by simpa using hcond.2), hg1] at he
          rcases List.mem_append.mp he with h1 | h1
          · exact .inl h1
          · have he2 : e = (ls, n) := by simpa using h1
            subst he2
            exact .inr ⟨caller, hc, by simpa using hls, rfl⟩
        · cases hm
          exact .inl (hg1 ▸ he)
    split at h
    · exact Option.noConfusion h
    · rename_i g1 heq
      have hg1 : g1.siblingEdges = st.graph.siblingEdges := by
        split at heq
        · split at heq
          · split at heq
            · cases heq
              exact siblingEdges_updateEdge_weight _ _ _ _ _
            · exact Option.noConfusion heq
          · exact Option.noConfusion heq
        · cases heq
          exact siblingEdges_addEdge_none _ _ _ _ rfl
      exact hsub g1 hg1 h

/-- When the conditions of the sibling step hold — a caller is active, the
snapshot is non-empty, its last member differs from the new node and from
the caller, and no edge of any kind from it to the new node exists — the
caller section records the sibling edge. -/
theorem callerSection_sibling_creates (f : TracedCall) (n : String)
    (st : TraceState) (g3 : Graph) (caller ls : String)
    (h : callerSection f n st = some g3)
    (hc : st.stack.getLast? = some caller)
    (hls : (st.graph.successors caller).getLast? = some ls)
    (hne : ls ≠ n) (hnc : ls ≠ caller)
    (hnoe : st.graph.hasEdge ls n = false) :
    (ls, n) ∈ g3.siblingEdges := by
  simp only [callerSection, hc] at h
  split at h
  · exact Option.noConfusion h
  · rename_i g1 heq
    have hg1 : g1.hasEdge ls n = false := by
      split at heq
      · split at heq
        · split at heq
          · cases heq
            rw [hasEdge_updateEdge]
            exact hnoe
          · exact Option.noConfusion heq
        · exact Option.noConfusion heq
      · cases heq
        rw [hasEdge_addEdge_other _ _ _ _ _ _ (by simp [hnc])]
        exact hnoe
    simp only [hls] at h
    rw [if_pos ⟨hne, by simp [hg1]⟩] at h
    rw [Option.some.injEq] at h
    subst h
    rw [siblingEdges_addEdge_fresh _ _ _ _ hg1]
    simp

/-- Any sibling edge present after the wrapper prologue was either already
present or runs from the last pre-existing successor of the active caller
to the node resolved for this invocation. -/
theorem enterCall_sibling_sub (f : TracedCall) (st : TraceState) :
    ∀ e ∈ (enterCall f st).2.graph.siblingEdges,
      e ∈ st.graph.siblingEdges ∨
        (∃ caller, st.stack.getLast? = some caller ∧
          (st.graph.successors caller).getLast? = some e.1 ∧
          e.2 = (resolveNode f.qualname st).1) := by
  intro e he
  simp only [enterCall] at he
  split at he
  · dsimp only at he
    rw [(resolveNode_state f.qualname st).1] at he
    exact .inl he
  · rename_i g2 hbump
    have hedges : g2.edges = st.graph.edges :=
      (ensureBump_edges hbump).trans
        (congrArg Graph.edges (resolveNode_state f.qualname st).1)
    split at he
    · dsimp only at he
      rw [Graph.siblingEdges_of_edges hedges] at he
      exact .inl he
    · rename_i g3 hcs
      have hmain : e ∈ g3.siblingEdges →
          e ∈ st.graph.siblingEdges ∨
            (∃ caller, st.stack.getLast? = some caller ∧
              (st.graph.successors caller).getLast? = some e.1 ∧
              e.2 = (resolveNode f.qualname st).1) := by
        intro he'
        rcases callerSection_sibling_sub f _ _ g3 hcs e he' with h1 |
          ⟨caller, hclr, hsucc, hdst⟩
        · left
          dsimp only at h1
          rwa [Graph.siblingEdges_of_edges hedges] at h1
        · right
          refine ⟨caller, ?_, ?_, hdst⟩
          · dsimp only at hclr
            rwa [(resolveNode_state f.qualname st).2.1] at hclr
          · dsimp only at hsucc
            rwa [Graph.successors_of_edges hedges] at hsucc
      split at he
      · dsimp only at he
        exact hmain he
      · dsimp only at he
        rw [logArgs_sibling] at he
        exact hmain he

/-- When a caller is active and the sibling-step conditions hold — the
snapshot's last member differs from the new node and from the caller, and
no edge of any kind from it to the new node exists — the wrapper prologue
records the sibling edge (unless it aborts with the internal `KeyError`). -/
theorem enterCall_sibling_creates (f : TracedCall) (st : TraceState)
    (caller ls : String)
    (hc : st.stack.getLast? = some caller)
    (hls : (st.graph.successors caller).getLast? = some ls)
    (hne : ls ≠ (resolveNode f.qualname st).1)
    (hnc : ls ≠ caller)
    (hnoe : st.graph.hasEdge ls (resolveNode f.qualname st).1 = false)
    (hok : (enterCall f st).1 ≠ .error .keyError) :
    (ls, (resolveNode f.qualname st).1) ∈
      (enterCall f st).2.graph.siblingEdges := by
  simp only [enterCall] at hok ⊢
  split
  · rename_i hbump
    simp [hbump] at hok
  · rename_i g2 hbump
    have hedges : g2.edges = st.graph.edges :=
      (ensureBump_edges hbump).trans
        (congrArg Graph.edges (resolveNode_state f.qualname st).1)
    split
    · rename_i hcs
      simp [hbump, hcs] at hok
    · rename_i g3 hcs
      have hmem : (ls, (resolveNode f.qualname st).1) ∈ g3.siblingEdges := by
        apply callerSection_sibling_creates f _ _ g3 caller ls hcs
        · dsimp only
          rwa [(resolveNode_state f.qualname st).2.1]
        · dsimp only
          rwa [Graph.successors_of_edges hedges]
        · exact hne
        · exact hnc
        · dsimp only
          rwa [Graph.hasEdge_of_edges hedges]
      split
      · exact hmem
      · dsimp only
        rw [logArgs_sibling]
        exact hmem

/-- The wrapper prologue errors only with the internal `KeyError` (before
the push) or the uncaught signature error (after the push); on success the
resolved node has been pushed. -/
theorem enterCall_error (f : TracedCall) (st : TraceState) (e : PyErr)
    (h : (enterCall f st).1 = .error e) :
    (e = .keyError ∧ (enterCall f st).2.stack = st.stack) ∨
      (e = .sigError ∧ f.sigFails = true ∧
        (enterCall f st).2.stack =
          st.stack ++ [(resolveNode f.qualname st).1]) := by
  have hb := h
  simp only [enterCall] at hb
  split at hb
  · rename_i hbump
    cases hb
    refine .inl ⟨rfl, ?_⟩
    simp only [enterCall, hbump]
    exact (resolveNode_state f.qualname st).2.1
  · rename_i g2 hbump
    split at hb
    · rename_i hcs
      cases hb
      refine .inl ⟨rfl, ?_⟩
      simp only [enterCall, hbump, hcs]
      exact (resolveNode_state f.qualname st).2.1
    · rename_i g3 hcs
      split at hb
      · rename_i hsf
        cases hb
        refine .inr ⟨rfl, hsf, ?_⟩
        simp only [enterCall, hbump, hcs, if_pos hsf]
        rw [(resolveNode_state f.qualname st).2.1]
      · cases hb

/-- On success the prologue pushed exactly the resolved node. -/
theorem enterCall_ok_stack (f : TracedCall) (st : TraceState) (n : String)
    (h : (enterCall f st).1 = .ok n) :
    (enterCall f st).2.stack = st.stack ++ [n] := by
  have hb := h
  simp only [enterCall] at hb
  split at hb
  · cases hb
  · rename_i g2 hbump
    split at hb
    · cases hb
    · rename_i g3 hcs
      split at hb
      · cases hb
      · rename_i hsf
        cases hb
        simp only [enterCall, hbump, hcs, if_neg hsf]
        rw [(resolveNode_state f.qualname st).2.1]

mutual

/-- If signature introspection succeeds for every traced call in the
execution, the wrapper restores the call stack on every exit path. -/
theorem runCall_stack_restored :
    ∀ (t : CallTree) (st : TraceState), allSigOk t = true →
      (runCall t st).2.stack = st.stack
  | .node f children outcome, st, h => by
      rw [allSigOk, Bool.and_eq_true] at h
      obtain ⟨hsig, hch⟩ := h
      rw [Bool.not_eq_true'] at hsig
      simp only [runCall]
      split
      · rename_i e herr
        rcases enterCall_error f st e herr with ⟨_, hst⟩ | ⟨_, hsf, _⟩
        · exact hst
        · rw [hsig] at hsf
          cases hsf
      · rename_i n hok
        have hst1 := enterCall_ok_stack f st n hok
        have hch' := runChildren_stack_restored children (enterCall f st).2 hch
        split
        · simp only [popStack, hch', hst1, List.dropLast_concat]
        · split
          · simp only [popStack, hch', hst1, List.dropLast_concat]
          · simp only [popStack, hch', hst1, List.dropLast_concat]
termination_by t => sizeOf t
decreasing_by all_goals (simp_wf <;> omega)

/-- The traced children of one wrapped call, run in order, leave the call
stack unchanged when signature introspection succeeds throughout. -/
theorem runChildren_stack_restored :
    ∀ (ts : List CallTree) (st : TraceState), allSigOkL ts = true →
      (runChildren ts st).2.stack = st.stack
  | [], _, _ => by simp only [runChildren]
  | c :: rest, st, h => by
      rw [allSigOkL, Bool.and_eq_true] at h
      obtain ⟨hc, hrest⟩ := h
      simp only [runChildren]
      split
      · split
        · exact runCall_stack_restored c st hc
        · exact (runChildren_stack_restored rest _ hrest).trans
            (runCall_stack_restored c st hc)
      · exact (runChildren_stack_restored rest _ hrest).trans
          (runCall_stack_restored c st hc)
termination_by ts => sizeOf ts
decreasing_by all_goals (simp_wf <;> omega)

end

mutual

/-- With working signature introspection, a wrapper invocation returns the
wrapped call's declared outcome unless an internal `KeyError` occurred. -/
theorem runCall_transparent_aux :
    ∀ (t : CallTree) (st : TraceState), allSigOk t = true →
      (runCall t st).1 = declared t ∨ (runCall t st).1 = .error .keyError
  | .node f children outcome, st, h => by
      rw [allSigOk, Bool.and_eq_true] at h
      obtain ⟨hsig, hch⟩ := h
      rw [Bool.not_eq_true'] at hsig
      simp only [runCall]
      split
      · rename_i e herr
        rcases enterCall_error f st e herr with ⟨hk, _⟩ | ⟨_, hsf, _⟩
        · subst hk
          exact .inr rfl
        · rw [hsig] at hsf
          cases hsf
      · rename_i n hok
        split
        · rename_i e herr
          rcases runChildren_tracer_aux children (enterCall f st).2 hch with
            h1 | h1
          · rw [herr] at h1
            cases h1
          · rw [herr] at h1
            cases h1
            exact .inr rfl
        · cases outcome with
          | ok v => exact .inl rfl
          | error msg => exact .inl rfl
termination_by t => sizeOf t
decreasing_by all_goals (simp_wf <;> omega)

/-- With working signature introspection, running the traced children
either finishes normally or aborts with the internal `KeyError`. -/
theorem runChildren_tracer_aux :
    ∀ (ts : List CallTree) (st : TraceState), allSigOkL ts = true →
      (runChildren ts st).1 = none ∨ (runChildren ts st).1 = some .keyError
  | [], _, _ => .inl (by simp only [runChildren])
  | c :: rest, st, h => by
      rw [allSigOkL, Bool.and_eq_true] at h
      obtain ⟨hc, hrest⟩ := h
      simp only [runChildren]
      split
      · rename_i e herr
        split
        · rename_i htr
          rcases runCall_transparent_aux c st hc with h1 | h1
          · rw [herr] at h1
            obtain ⟨fc, cc, oc⟩ := c
            cases oc with
            | ok v =>
                simp only [declared] at h1
                cases h1
            | error msg =>
                simp only [declared] at h1
                cases h1
                simp [PyErr.isTracer] at htr
          · rw [herr] at h1
            cases h1
            exact .inr rfl
        · exact runChildren_tracer_aux rest _ hrest
      · exact runChildren_tracer_aux rest _ hrest
termination_by ts => sizeOf ts
decreasing_by all_goals (simp_wf <;> omega)

end

/-- A key absent from both halves is absent from their concatenation. -/
theorem lookupC_append_none {j : Nat} {a b : Cache}
    (ha : lookupC j a = none) (hb : lookupC j b = none) :
    lookupC j (a ++ b) = none := by
  unfold lookupC at *
  rw [List.find?_append]
  simp only [Option.map_eq_none'] at *
  simp [ha, hb, Option.orElse]

/-- A key different from every stored key is not found. -/
theorem lookupC_none_of_keys {j : Nat} {d : Cache}
    (h : ∀ e ∈ d, e.1 ≠ j) : lookupC j d = none := by
  unfold lookupC
  simp only [Option.map_eq_none']
  rw [List.find?_eq_none]
  intro e he
  simp [h e he]

/-- Permuting dict entries permutes their identity keys. -/
theorem entryIds_perm {l1 l2 : List (PKey × Nat × Val)} (h : l1.Perm l2) :
    (entryIds l1).Perm (entryIds l2) := by
  induction h with
  | nil => exact .refl _
  | cons x _ ih =>
      obtain ⟨k, i, v⟩ := x
      simp only [entryIds]
      exact ih.append_left _
  | swap x y l =>
      obtain ⟨kx, ix, vx⟩ := x
      obtain ⟨ky, iy, vy⟩ := y
      simp only [entryIds, ← List.append_assoc]
      exact (List.perm_append_comm).append_right _
  | trans _ _ ih1 ih2 => exact ih1.trans ih2

mutual

/-- Core cache-obliviousness: on identity keys fresh for both caches,
`get_unique_id` computes the same digest from either cache and appends the
same block of new entries (whose keys all belong to the object) to each. -/
theorem guid_cache_oblivious (i : Nat) (v : Val) (c₁ c₂ : Cache)
    (hfresh : ∀ j ∈ objIds (i, v), lookupC j c₁ = none ∧ lookupC j c₂ = none)
    (hnd : (objIds (i, v)).Nodup) :
    (get_unique_id (i, v) c₁).1 = (get_unique_id (i, v) c₂).1 ∧
    ∃ d : Cache, (get_unique_id (i, v) c₁).2 = c₁ ++ d ∧
      (get_unique_id (i, v) c₂).2 = c₂ ++ d ∧
      ∀ e ∈ d, e.1 ∈ objIds (i, v) := by
  have hobj : objIds (i, v) = i :: valIds v := by simp [objIds]
  have hifresh := hfresh i (by simp [hobj])
  have hv : ∀ j ∈ valIds v, lookupC j c₁ = none ∧ lookupC j c₂ = none :=
    fun j hj => hfresh j (by simp [hobj, hj])
  have hvnd : (valIds v).Nodup := by
    rw [hobj] at hnd
    exact (List.nodup_cons.mp hnd).2
  rw [get_unique_id_not_cached i v c₁ hifresh.1,
    get_unique_id_not_cached i v c₂ hifresh.2]
  rcases fingerprintOf_cache_oblivious v c₁ c₂ hv hvnd with
    ⟨msg, he1, he2⟩ | ⟨fp, d, ho1, ho2, hkeys⟩
  · rw [he1, he2]
    refine ⟨rfl,
      [(i, sha256hex (pyTypeName v ++ ":" ++ pyStrV v))], ?_, ?_, ?_⟩
    · simp [insertC]
    · simp [insertC]
    · intro e he
      simp only [List.mem_singleton] at he
      subst he
      simp [hobj]
  · rw [ho1, ho2]
    refine ⟨rfl, d ++ [(i, sha256hex (fpBytes fp))], ?_, ?_, ?_⟩
    · simp [insertC]
    · simp [insertC]
    · intro e he
      rcases List.mem_append.mp he with h | h
      · have := hkeys e h
        simp [hobj, this]
      · simp only [List.mem_singleton] at h
        subst h
        simp [hobj]
termination_by 1 + sizeOf v
decreasing_by all_goals (simp_wf <;> omega)

/-- Cache-obliviousness of the classifier: either both runs fail with the
same message (leaving the caches untouched), or both produce the same
tagged fingerprint and append the same block of new entries, whose keys
all belong to the value. -/
theorem fingerprintOf_cache_oblivious :
    ∀ (v : Val) (c₁ c₂ : Cache),
      (∀ j ∈ valIds v, lookupC j c₁ = none ∧ lookupC j c₂ = none) →
      (valIds v).Nodup →
      (∃ msg, fingerprintOf v c₁ = .error msg ∧
        fingerprintOf v c₂ = .error msg) ∨
      (∃ (fp : FP) (d : Cache), fingerprintOf v c₁ = .ok (fp, c₁ ++ d) ∧
        fingerprintOf v c₂ = .ok (fp, c₂ ++ d) ∧
        ∀ e ∈ d, e.1 ∈ valIds v)
  | .tensor es, c₁, c₂, hfresh, hnd => by
      cases htf : tensor_fingerprint es with
      | error msg =>
          refine .inl ⟨msg, ?_, ?_⟩ <;> simp [fingerprintOf, htf]
      | ok fp =>
          refine .inr ⟨fp, [], ?_, ?_, by simp⟩ <;> simp [fingerprintOf, htf]
  | .vlist items, c₁, c₂, hfresh, hnd => by
      have hids : valIds (Val.vlist items) = itemIds items := by simp [valIds]
      rw [hids] at hfresh hnd
      obtain ⟨hfst, d, h1, h2, hkeys⟩ :=
        guidItems_cache_oblivious items c₁ c₂ hfresh hnd
      refine .inr ⟨.listFP (guidItems items c₁).1, d, ?_, ?_, ?_⟩
      · simp only [fingerprintOf]
        rw [h1]
      · simp only [fingerprintOf]
        rw [h2, hfst]
      · intro e he
        rw [hids]
        exact hkeys e he
  | .vtuple items, c₁, c₂, hfresh, hnd => by
      have hids : valIds (Val.vtuple items) = itemIds items := by
        simp [valIds]
      rw [hids] at hfresh hnd
      obtain ⟨hfst, d, h1, h2, hkeys⟩ :=
        guidItems_cache_oblivious items c₁ c₂ hfresh hnd
      refine .inr ⟨.tupleFP (guidItems items c₁).1, d, ?_, ?_, ?_⟩
      · simp only [fingerprintOf]
        rw [h1]
      · simp only [fingerprintOf]
        rw [h2, hfst]
      · intro e he
        rw [hids]
        exact hkeys e he
  | .vdict entries, c₁, c₂, hfresh, hnd => by
      have hids : valIds (Val.vdict entries) = entryIds entries := by
        simp [valIds]
      rw [hids] at hfresh hnd
      cases hs : pySorted entries with
      | none =>
          refine .inl ⟨"unsupported comparison between int and str", ?_, ?_⟩ <;>
            rw [fingerprintOf_vdict, hs]
      | some sorted =>
          have hpe : sorted.Perm entries := by
            unfold pySorted at hs
            split at hs
            · cases hs
              exact List.perm_insertionSort entryLE entries
            · cases hs
          have hperm : (entryIds sorted).Perm (entryIds entries) :=
            entryIds_perm hpe
          have hsz : sizeOf sorted = sizeOf entries := hpe.sizeOf_eq_sizeOf
          obtain ⟨hfst, d, h1, h2, hkeys⟩ :=
            guidEntries_cache_oblivious sorted c₁ c₂
              (fun j hj => hfresh j (hperm.subset hj))
              (hperm.nodup_iff.mpr hnd)
          refine .inr ⟨.dictFP (guidEntries sorted c₁).1, d, ?_, ?_, ?_⟩
          · rw [fingerprintOf_vdict, hs]
            dsimp only
            rw [h1]
          · rw [fingerprintOf_vdict, hs]
            dsimp only
            rw [h2, hfst]
          · intro e he
            rw [hids]
            exact hperm.subset (hkeys e he)
  | .vprim p, c₁, c₂, hfresh, hnd =>
      .inr ⟨.primFP p, [], by simp [fingerprintOf],
        by simp [fingerprintOf], by simp⟩
  | .vobj (some bytes) tn rn, c₁, c₂, hfresh, hnd =>
      .inr ⟨.serFP bytes, [], by simp [fingerprintOf],
        by simp [fingerprintOf], by simp⟩
  | .vobj none tn rn, c₁, c₂, hfresh, hnd =>
      .inr ⟨.unserFP (tn ++ ":" ++ rn), [], by simp [fingerprintOf],
        by simp [fingerprintOf], by simp⟩
termination_by v => sizeOf v
decreasing_by all_goals (simp_wf <;> omega)

/-- Cache-obliviousness for sequences of items. -/
theorem guidItems_cache_oblivious :
    ∀ (items : List (Nat × Val)) (c₁ c₂ : Cache),
      (∀ j ∈ itemIds items, lookupC j c₁ = none ∧ lookupC j c₂ = none) →
      (itemIds items).Nodup →
      (guidItems items c₁).1 = (guidItems items c₂).1 ∧
      ∃ d : Cache, (guidItems items c₁).2 = c₁ ++ d ∧
        (guidItems items c₂).2 = c₂ ++ d ∧ ∀ e ∈ d, e.1 ∈ itemIds items
  | [], c₁, c₂, hfresh, hnd =>
      ⟨by simp [guidItems], [], by simp [guidItems],
        by simp [guidItems], by simp⟩
  | (i, v) :: t, c₁, c₂, hfresh, hnd => by
      have hids : itemIds ((i, v) :: t) = objIds (i, v) ++ itemIds t := by
        simp [itemIds, objIds]
      rw [hids] at hfresh hnd
      have hf1 : ∀ j ∈ objIds (i, v),
          lookupC j c₁ = none ∧ lookupC j c₂ = none :=
        fun j hj => hfresh j (List.mem_append_left _ hj)
      have hft : ∀ j ∈ itemIds t,
          lookupC j c₁ = none ∧ lookupC j c₂ = none :=
        fun j hj => hfresh j (List.mem_append_right _ hj)
      obtain ⟨hfst, d1, h1, h2, hk1⟩ :=
        guid_cache_oblivious i v c₁ c₂ hf1 hnd.of_append_left
      have hfrt : ∀ j ∈ itemIds t,
          lookupC j (c₁ ++ d1) = none ∧ lookupC j (c₂ ++ d1) = none := by
        intro j hj
        have hd1 : lookupC j d1 = none := by
          apply lookupC_none_of_keys
          intro e he heq
          exact (List.disjoint_of_nodup_append hnd) (hk1 e he)
            (by rw [heq]; exact hj)
        exact ⟨lookupC_append_none (hft j hj).1 hd1,
          lookupC_append_none (hft j hj).2 hd1⟩
      obtain ⟨hfstt, d2, h1t, h2t, hk2⟩ :=
        guidItems_cache_oblivious t (c₁ ++ d1) (c₂ ++ d1) hfrt
          hnd.of_append_right
      simp only [guidItems]
      rw [h1, h2]
      refine ⟨?_, d1 ++ d2, ?_, ?_, ?_⟩
      · rw [hfst, hfstt]
      · rw [h1t, List.append_assoc]
      · rw [h2t, List.append_assoc]
      · intro e he
        rw [hids]
        rcases List.mem_append.mp he with h | h
        · exact List.mem_append_left _ (hk1 e h)
        · exact List.mem_append_right _ (hk2 e h)
termination_by items => sizeOf items
decreasing_by all_goals (simp_wf <;> omega)

/-- Cache-obliviousness for lists of dict entries. -/
theorem guidEntries_cache_oblivious :
    ∀ (entries : List (PKey × Nat × Val)) (c₁ c₂ : Cache),
      (∀ j ∈ entryIds entries,
        lookupC j c₁ = none ∧ lookupC j c₂ = none) →
      (entryIds entries).Nodup →
      (guidEntries entries c₁).1 = (guidEntries entries c₂).1 ∧
      ∃ d : Cache, (guidEntries entries c₁).2 = c₁ ++ d ∧
        (guidEntries entries c₂).2 = c₂ ++ d ∧
        ∀ e ∈ d, e.1 ∈ entryIds entries
  | [], c₁, c₂, hfresh, hnd =>
      ⟨by simp [guidEntries], [], by simp [guidEntries],
        by simp [guidEntries], by simp⟩
  | (k, i, v) :: t, c₁, c₂, hfresh, hnd => by
      have hids : entryIds ((k, i, v) :: t) =
          objIds (i, v) ++ entryIds t := by
        simp [entryIds, objIds]
      rw [hids] at hfresh hnd
      have hf1 : ∀ j ∈ objIds (i, v),
          lookupC j c₁ = none ∧ lookupC j c₂ = none :=
        fun j hj => hfresh j (List.mem_append_left _ hj)
      have hft : ∀ j ∈ entryIds t,
          lookupC j c₁ = none ∧ lookupC j c₂ = none :=
        fun j hj => hfresh j (List.mem_append_right _ hj)
      obtain ⟨hfst, d1, h1, h2, hk1⟩ :=
        guid_cache_oblivious i v c₁ c₂ hf1 hnd.of_append_left
      have hfrt : ∀ j ∈ entryIds t,
          lookupC j (c₁ ++ d1) = none ∧ lookupC j (c₂ ++ d1) = none := by
        intro j hj
        have hd1 : lookupC j d1 = none := by
          apply lookupC_none_of_keys
          intro e he heq
          exact (List.disjoint_of_nodup_append hnd) (hk1 e he)
            (by rw [heq]; exact hj)
        exact ⟨lookupC_append_none (hft j hj).1 hd1,
          lookupC_append_none (hft j hj).2 hd1⟩
      obtain ⟨hfstt, d2, h1t, h2t, hk2⟩ :=
        guidEntries_cache_oblivious t (c₁ ++ d1) (c₂ ++ d1) hfrt
          hnd.of_append_right
      simp only [guidEntries]
      rw [h1, h2]
      refine ⟨?_, d1 ++ d2, ?_, ?_, ?_⟩
      · rw [hfst, hfstt]
      · rw [h1t, List.append_assoc]
      · rw [h2t, List.append_assoc]
      · intro e he
        rw [hids]
        rcases List.mem_append.mp he with h | h
        · exact List.mem_append_left _ (hk1 e h)
        · exact List.mem_append_right _ (hk2 e h)
termination_by entries => sizeOf entries
decreasing_by all_goals (simp_wf <;> omega)

end

/-- `find?` by key commutes with the entry-rewriting map used by `setS`. -/
theorem find?_setS_map (m n : String) (v : Nat) :
    ∀ l : List (String × Nat),
      (l.map fun e => if e.1 = n then (n, v) else e).find?
          (fun e => e.1 = m) =
        (l.find? fun e => e.1 = m).map
          fun e => if e.1 = n then (n, v) else e
  | [] => rfl
  | e :: t => by
      have hkey : ((if e.1 = n then (n, v) else e) : String × Nat).1 = e.1 := by
        by_cases hn : e.1 = n <;> simp [hn]
      by_cases hp : e.1 = m
      · rw [List.map_cons,
          List.find?_cons_of_pos _ (by simp only [hkey]; simpa using hp),
          List.find?_cons_of_pos _ (by simp [hp])]
        simp
      · rw [List.map_cons,
          List.find?_cons_of_neg _ (by simp only [hkey]; simpa using hp),
          List.find?_cons_of_neg _ (by simp [hp])]
        exact find?_setS_map m n v t

/-- `setS` assigns exactly the given key, leaving every other key alone. -/
theorem lookupS_setS (m n : String) (v : Nat) (l : List (String × Nat)) :
    lookupS m (setS n v l) = if m = n then some v else lookupS m l := by
  unfold setS lookupS
  by_cases hf : (l.find? fun e => e.1 = n).isSome
  · rw [if_pos hf, find?_setS_map]
    cases hfind : l.find? fun e => e.1 = m with
    | none =>
        by_cases hmn : m = n
        · subst hmn
          rw [hfind] at hf
          simp at hf
        · simp [hmn]
    | some e0 =>
        have he0 : e0.1 = m := by
          have := List.find?_some hfind
          simpa using this
        by_cases hmn : m = n
        · subst hmn
          simp [he0]
        · simp [he0, hmn]
  · rw [if_neg hf]
    have hnone : (l.find? fun e => e.1 = n) = none := by
      cases h : l.find? fun e => e.1 = n
      · rfl
      · rw [h] at hf
        simp at hf
    rw [List.find?_append]
    by_cases hmn : m = n
    · subst hmn
      rw [hnone]
      simp [List.find?]
    · have hlast : ([(n, v)].find? fun e => e.1 = m) = none := by
        have hnm : ¬ (n = m) := fun h => hmn h.symm
        simp [List.find?, hnm]
      rw [hlast]
      cases h : l.find? fun e => e.1 = m <;>
        simp [h, Option.orElse, hmn]

/-- One pass assigns the level to exactly the frontier members. -/
theorem processLevel_lookup (g : Graph) (lvl : Nat) :
    ∀ (current : List String) (levels : List (String × Nat)) (m : String),
      lookupS m (processLevel g lvl levels current).1 =
        if m ∈ current then some lvl else lookupS m levels
  | [], levels, m => by simp [processLevel]
  | n :: rest, levels, m => by
      simp only [processLevel]
      rw [processLevel_lookup g lvl rest (setS n lvl levels) m]
      by_cases hr : m ∈ rest
      · simp [hr]
      · rw [if_neg hr, lookupS_setS]
        by_cases hmn : m = n
        · simp [hmn]
        · simp [hmn, hr]

/-- Every member of the next frontier is a successor of a frontier member
and had no level when the pass began. -/
theorem processLevel_next_mem (g : Graph) (lvl : Nat) :
    ∀ (current : List String) (levels : List (String × Nat)) (f : String),
      f ∈ (processLevel g lvl levels current).2 →
        (∃ n ∈ current, f ∈ g.successors n) ∧ lookupS f levels = none
  | [], levels, f => by simp [processLevel]
  | n :: rest, levels, f => by
      simp only [processLevel]
      intro hf
      rcases List.mem_append.mp hf with h | h
      · have hfl := List.mem_filter.mp h
        have hnone : lookupS f (setS n lvl levels) = none := by
          have := hfl.2
          simpa [Option.isNone_iff_eq_none] using this
        rw [lookupS_setS] at hnone
        by_cases hfn : f = n
        · simp [hfn] at hnone
        · rw [if_neg hfn] at hnone
          exact ⟨⟨n, by simp, hfl.1⟩, hnone⟩
      · obtain ⟨⟨n', hn', hsucc⟩, hnone⟩ :=
          processLevel_next_mem g lvl rest (setS n lvl levels) f h
        rw [lookupS_setS] at hnone
        by_cases hfn : f = n
        · simp [hfn] at hnone
        · rw [if_neg hfn] at hnone
          exact ⟨⟨n', by simp [hn'], hsucc⟩, hnone⟩

/-- After a pass, every successor of a frontier member either has a level
or sits in the next frontier. -/
theorem processLevel_covers (g : Graph) (lvl : Nat) :
    ∀ (current : List String) (levels : List (String × Nat)) (f : String),
      f ∈ current → ∀ s ∈ g.successors f,
        (lookupS s (processLevel g lvl levels current).1).isSome = true ∨
          s ∈ (processLevel g lvl levels current).2
  | [], levels, f => by simp
  | n :: rest, levels, f => by
      intro hf s hs
      simp only [processLevel]
      rcases List.mem_cons.mp hf with rfl | hmem
      · by_cases hns : (lookupS s (setS f lvl levels)).isNone
        · right
          exact List.mem_append.mpr (.inl (List.mem_filter.mpr ⟨hs, by simpa using hns⟩))
        · left
          rw [processLevel_lookup]
          by_cases hsr : s ∈ rest
          · simp [hsr]
          · rw [if_neg hsr]
            simpa [Option.isNone_iff_eq_none, ← Option.ne_none_iff_isSome] using hns
      · rcases processLevel_covers g lvl rest (setS n lvl levels) f hmem s hs with h | h
        · left
          exact h
        · right
          exact List.mem_append.mpr (.inr h)

/-- With closed edges, successors are nodes. -/
theorem succ_mem_nodes {g : Graph} (hC : EdgesClosed g) {n s : String}
    (h : s ∈ g.successors n) : s ∈ g.nodes.map (·.1) := by
  unfold Graph.successors at h
  obtain ⟨e, he, hre⟩ := List.mem_map.mp h
  exact hre ▸ (hC e (List.mem_filter.mp he).1).2

/-- A node with an incoming edge has nonzero in-degree. -/
theorem inDegree_pos_of_succ (g : Graph) (n r : String)
    (h : r ∈ g.successors n) : g.inDegree r ≠ 0 := by
  unfold Graph.successors at h
  obtain ⟨e, he, hre⟩ := List.mem_map.mp h
  have he' := List.mem_filter.mp he
  unfold Graph.inDegree
  intro h0
  rw [List.length_eq_zero] at h0
  have hmem : e ∈ g.edges.filter fun x => x.2.1 = r :=
    List.mem_filter.mpr ⟨he'.1, by simp [hre]⟩
  rw [h0] at hmem
  cases hmem

/-- A pass never loses levels: the missing count is monotone. -/
theorem countMissing_le (g : Graph) (lvl : Nat)
    (current : List String) (levels : List (String × Nat)) :
    countMissing g (processLevel g lvl levels current).1 ≤
      countMissing g levels := by
  unfold countMissing
  apply List.countP_mono_left
  intro x _ hx
  rw [processLevel_lookup] at hx
  by_cases hc : x ∈ current
  · simp [hc] at hx
  · rw [if_neg hc] at hx
    exact hx

/-- Leveling a hitherto-unleveled node strictly shrinks the missing count. -/
theorem countMissing_lt (g : Graph) (lvl : Nat)
    (current : List String) (levels : List (String × Nat)) (n : String)
    (hc : n ∈ current) (hnode : n ∈ g.nodes.map (·.1))
    (hnone : lookupS n levels = none) :
    countMissing g (processLevel g lvl levels current).1 <
      countMissing g levels := by
  obtain ⟨l1, l2, hsplit⟩ := List.append_of_mem hnode
  unfold countMissing
  rw [hsplit, List.countP_append, List.countP_append, List.countP_cons,
    List.countP_cons]
  have h1 : l1.countP (fun x => (lookupS x (processLevel g lvl levels current).1).isNone) ≤
      l1.countP fun x => (lookupS x levels).isNone := by
    apply List.countP_mono_left
    intro x _ hx
    rw [processLevel_lookup] at hx
    by_cases hcx : x ∈ current
    · simp [hcx] at hx
    · rw [if_neg hcx] at hx
      exact hx
  have h2 : l2.countP (fun x => (lookupS x (processLevel g lvl levels current).1).isNone) ≤
      l2.countP fun x => (lookupS x levels).isNone := by
    apply List.countP_mono_left
    intro x _ hx
    rw [processLevel_lookup] at hx
    by_cases hcx : x ∈ current
    · simp [hcx] at hx
    · rw [if_neg hcx] at hx
      exact hx
  have hnew : ((lookupS n (processLevel g lvl levels current).1).isNone : Bool) = false := by
    rw [processLevel_lookup, if_pos hc]
    rfl
  have hold : ((lookupS n levels).isNone : Bool) = true := by
    rw [hnone]
    rfl
  simp only [hnew, hold, Bool.false_eq_true, if_false, if_true]
  omega

/-- Once the fuel covers twice the missing count plus two, adding more
fuel does not change the result: the Python `while` loop terminates. -/
theorem assignLoop_fuel_irrelevant (g : Graph) (hC : EdgesClosed g) :
    ∀ (fuel extra : Nat) (levels : List (String × Nat))
      (current : List String) (lvl : Nat),
      (∀ n ∈ current, n ∈ g.nodes.map (·.1)) →
      (∀ f ∈ current, (lookupS f levels).isSome = true →
        ∀ s ∈ g.successors f,
          (lookupS s levels).isSome = true ∨ s ∈ current) →
      2 * countMissing g levels + 2 ≤ fuel →
      assignLoop g (fuel + extra) levels current lvl =
        assignLoop g fuel levels current lvl
  | 0, extra, levels, current, lvl => fun _ _ hfuel => by omega
  | fuel + 1, extra, levels, current, lvl => fun hI1 hI2 hfuel => by
      have hrw : fuel + 1 + extra = (fuel + extra) + 1 := by omega
      rw [hrw]
      cases current with
      | nil => simp [assignLoop]
      | cons c0 rest =>
          simp only [assignLoop]
          by_cases hall : ∀ n ∈ c0 :: rest, (lookupS n levels).isSome = true
          · have hnext : (processLevel g lvl levels (c0 :: rest)).2 = [] := by
              rw [List.eq_nil_iff_forall_not_mem]
              intro f hf
              obtain ⟨⟨n, hn, hsucc⟩, hnone⟩ :=
                processLevel_next_mem g lvl (c0 :: rest) levels f hf
              rcases hI2 n hn (hall n hn) f hsucc with h | h
              · rw [hnone] at h
                cases h
              · have := hall f h
                rw [hnone] at this
                cases this
            rw [hnext]
            obtain ⟨fu, rfl⟩ : ∃ fu, fuel = fu + 1 := by
              refine ⟨fuel - 1, ?_⟩
              omega
            have hrw2 : fu + 1 + extra = (fu + extra) + 1 := by omega
            rw [hrw2]
            simp [assignLoop]
          · push_neg at hall
            obtain ⟨n, hn, hnsome⟩ := hall
            have hnnone : lookupS n levels = none := by
              rcases h : lookupS n levels with _ | w
              · rfl
              · rw [h] at hnsome
                simp at hnsome
            have hlt := countMissing_lt g lvl (c0 :: rest) levels n hn
              (hI1 n hn) hnnone
            apply assignLoop_fuel_irrelevant g hC fuel extra
            · intro m hm
              obtain ⟨⟨n', _, hsucc⟩, _⟩ :=
                processLevel_next_mem g lvl (c0 :: rest) levels m hm
              exact succ_mem_nodes hC hsucc
            · intro f hf hfsome s hs
              by_cases hfc : f ∈ c0 :: rest
              · exact processLevel_covers g lvl (c0 :: rest) levels f hfc s hs
              · obtain ⟨_, hfnone⟩ :=
                  processLevel_next_mem g lvl (c0 :: rest) levels f hf
                rw [processLevel_lookup, if_neg hfc, hfnone] at hfsome
                cases hfsome
            · omega

/-- An in-degree-zero node, once at level 0 and out of the frontier, keeps
level 0 forever. -/
theorem assignLoop_keeps_root (g : Graph) (r : String)
    (hdeg : g.inDegree r = 0) :
    ∀ (fuel : Nat) (levels : List (String × Nat)) (current : List String)
      (lvl : Nat),
      lookupS r levels = some 0 → r ∉ current →
      lookupS r (assignLoop g fuel levels current lvl) = some 0
  | 0, levels, current, lvl => fun hr _ => hr
  | fuel + 1, levels, current, lvl => fun hr hrc => by
      cases current with
      | nil => simpa [assignLoop] using hr
      | cons c0 rest =>
          simp only [assignLoop]
          apply assignLoop_keeps_root g r hdeg fuel
          · rw [processLevel_lookup, if_neg hrc]
            exact hr
          · intro hmem
            obtain ⟨⟨n, _, hsucc⟩, _⟩ :=
              processLevel_next_mem g lvl (c0 :: rest) levels r hmem
            exact inDegree_pos_of_succ g n r hsucc hdeg

/-- Congruence for `foldl` under a pointwise function equality. -/
theorem foldl_congr {α β : Type} (F G : β → α → β) :
    ∀ (l : List α) (acc : β), (∀ a ∈ l, ∀ b, F b a = G b a) →
      l.foldl F acc = l.foldl G acc
  | [], _ => fun _ => rfl
  | a :: t, acc => fun h => by
      simp only [List.foldl_cons]
      rw [h a (by simp)]
      exact foldl_congr F G t _ fun x hx b => h x (by simp [hx]) b

mutual

/-- Enough fuel makes the mirror agree with `get_unique_id`. -/
theorem get_unique_idF_eq : ∀ (fuel : Nat) (o : Obj) (c : Cache),
    sizeOf o ≤ fuel → get_unique_idF fuel o c = get_unique_id o c
  | 0, (i, v), c => fun h => by
      exfalso
      simp at h
  | fuel + 1, (i, v), c => fun h => by
      have hv : sizeOf v ≤ fuel := by
        simp at h
        omega
      cases hl : lookupC i c with
      | some hh => simp [get_unique_idF, get_unique_id, hl]
      | none =>
          simp only [get_unique_idF, get_unique_id, hl]
          rw [fingerprintOfF_eq fuel v c hv]
termination_by fuel => fuel

/-- Enough fuel makes the mirror agree with `fingerprintOf`. -/
theorem fingerprintOfF_eq : ∀ (fuel : Nat) (v : Val) (c : Cache),
    sizeOf v ≤ fuel → fingerprintOfF fuel v c = fingerprintOf v c
  | 0, v, c => fun h => by
      exfalso
      cases v <;> simp at h
  | fuel + 1, v, c => fun h => by
      cases v with
      | tensor es => simp [fingerprintOfF, fingerprintOf]
      | vlist items =>
          have hi : sizeOf items ≤ fuel := by
            simp at h
            omega
          simp only [fingerprintOfF, fingerprintOf]
          rw [guidItemsF_eq fuel items c hi]
      | vtuple items =>
          have hi : sizeOf items ≤ fuel := by
            simp at h
            omega
          simp only [fingerprintOfF, fingerprintOf]
          rw [guidItemsF_eq fuel items c hi]
      | vdict entries =>
          cases hs : pySorted entries with
          | none =>
              simp only [fingerprintOfF]
              rw [fingerprintOf_vdict, hs]
          | some sorted =>
              have hsz : sizeOf sorted ≤ fuel := by
                have hse : sizeOf sorted = sizeOf entries := by
                  unfold pySorted at hs
                  split at hs
                  · cases hs
                    exact (List.perm_insertionSort entryLE
                      entries).sizeOf_eq_sizeOf
                  · cases hs
                simp at h
                omega
              simp only [fingerprintOfF]
              rw [fingerprintOf_vdict, hs]
              dsimp only
              rw [guidEntriesF_eq fuel sorted c hsz]
      | vprim p => simp [fingerprintOfF, fingerprintOf]
      | vobj pk tn rn => cases pk <;> simp [fingerprintOfF, fingerprintOf]
termination_by fuel => fuel

/-- Enough fuel makes the mirror agree with `guidItems`. -/
theorem guidItemsF_eq : ∀ (fuel : Nat) (items : List (Nat × Val))
    (c : Cache), sizeOf items ≤ fuel →
    guidItemsF fuel items c = guidItems items c
  | 0, items, c => fun h => by
      exfalso
      cases items <;> simp at h
  | fuel + 1, [], c => fun _ => by simp [guidItemsF, guidItems]
  | fuel + 1, (i, v) :: t, c => fun h => by
      have h1 : sizeOf ((i, v) : Nat × Val) ≤ fuel := by
        simp at h ⊢
        omega
      have h2 : sizeOf t ≤ fuel := by
        simp at h
        omega
      simp only [guidItemsF, guidItems]
      rw [get_unique_idF_eq fuel (i, v) c h1,
        guidItemsF_eq fuel t (get_unique_id (i, v) c).2 h2]
termination_by fuel => fuel

/-- Enough fuel makes the mirror agree with `guidEntries`. -/
theorem guidEntriesF_eq : ∀ (fuel : Nat)
    (entries : List (PKey × Nat × Val)) (c : Cache),
    sizeOf entries ≤ fuel → guidEntriesF fuel entries c = guidEntries entries c
  | 0, entries, c => fun h => by
      exfalso
      cases entries <;> simp at h
  | fuel + 1, [], c => fun _ => by simp [guidEntriesF, guidEntries]
  | fuel + 1, (k, i, v) :: t, c => fun h => by
      have h1 : sizeOf ((i, v) : Nat × Val) ≤ fuel := by
        simp at h ⊢
        omega
      have h2 : sizeOf t ≤ fuel := by
        simp at h
        omega
      simp only [guidEntriesF, guidEntries]
      rw [get_unique_idF_eq fuel (i, v) c h1,
        guidEntriesF_eq fuel t (get_unique_id (i, v) c).2 h2]
termination_by fuel => fuel

end

mutual

/-- Enough fuel makes the mirror agree with `log_shape_info`. -/
theorem log_shape_infoF_eq : ∀ (fuel : Nat) (name : String) (o : Obj)
    (parent : Option String) (g : Graph) (c : Cache),
    sizeOf o ≤ fuel →
    log_shape_infoF fuel name o parent g c = log_shape_info name o parent g c
  | 0, name, (i, v), parent, g, c => fun h => by
      exfalso
      simp at h
  | fuel + 1, name, (i, v), parent, g, c => fun h => by
      cases v with
      | vdict entries =>
          have hi : sizeOf entries ≤ fuel := by
            simp at h
            omega
          simp only [log_shape_infoF, log_shape_info]
          rw [logDictItemsF_eq fuel name entries g c hi]
      | vlist items =>
          have hi : sizeOf items ≤ fuel := by
            simp at h
            omega
          simp only [log_shape_infoF, log_shape_info]
          rw [logSeqItemsF_eq fuel name 0 items g c hi]
      | vtuple items =>
          have hi : sizeOf items ≤ fuel := by
            simp at h
            omega
          simp only [log_shape_infoF, log_shape_info]
          rw [logSeqItemsF_eq fuel name 0 items g c hi]
      | tensor es =>
          simp only [log_shape_infoF.eq_def, log_shape_info.eq_def]
          rw [get_unique_idF_eq (fuel + 1) (i, .tensor es) c h]
      | vprim p =>
          simp only [log_shape_infoF.eq_def, log_shape_info.eq_def]
          rw [get_unique_idF_eq (fuel + 1) (i, .vprim p) c h]
      | vobj pk tn rn =>
          simp only [log_shape_infoF.eq_def, log_shape_info.eq_def]
          rw [get_unique_idF_eq (fuel + 1) (i, .vobj pk tn rn) c h]
termination_by fuel => fuel

/-- Enough fuel makes the mirror agree with `logDictItems`. -/
theorem logDictItemsF_eq : ∀ (fuel : Nat) (name : String)
    (entries : List (PKey × Nat × Val)) (g : Graph) (c : Cache),
    sizeOf entries ≤ fuel →
    logDictItemsF fuel name entries g c = logDictItems name entries g c
  | 0, name, entries, g, c => fun h => by
      exfalso
      cases entries <;> simp at h
  | fuel + 1, name, [], g, c => fun _ => by
      simp [logDictItemsF, logDictItems]
  | fuel + 1, name, (k, i, v) :: t, g, c => fun h => by
      have h1 : sizeOf ((i, v) : Nat × Val) ≤ fuel := by
        simp at h ⊢
        omega
      have h2 : sizeOf t ≤ fuel := by
        simp at h
        omega
      simp only [logDictItemsF, logDictItems]
      rw [log_shape_infoF_eq fuel (name ++ "[" ++ pyStrKey k ++ "]") (i, v)
        (some name) g c h1]
      rw [logDictItemsF_eq fuel name t _ _ h2]
termination_by fuel => fuel

/-- Enough fuel makes the mirror agree with `logSeqItems`. -/
theorem logSeqItemsF_eq : ∀ (fuel : Nat) (name : String) (idx : Nat)
    (items : List (Nat × Val)) (g : Graph) (c : Cache),
    sizeOf items ≤ fuel →
    logSeqItemsF fuel name idx items g c = logSeqItems name idx items g c
  | 0, name, idx, items, g, c => fun h => by
      exfalso
      cases items <;> simp at h
  | fuel + 1, name, idx, [], g, c => fun _ => by
      simp [logSeqItemsF, logSeqItems]
  | fuel + 1, name, idx, (i, v) :: t, g, c => fun h => by
      have h1 : sizeOf ((i, v) : Nat × Val) ≤ fuel := by
        simp at h ⊢
        omega
      have h2 : sizeOf t ≤ fuel := by
        simp at h
        omega
      simp only [logSeqItemsF, logSeqItems]
      rw [log_shape_infoF_eq fuel (name ++ "[" ++ toString idx ++ "]") (i, v)
        (some name) g c h1]
      rw [logSeqItemsF_eq fuel name (idx + 1) t _ _ h2]
termination_by fuel => fuel

end

/-- Enough fuel makes the mirror agree with `logArgs`. -/
theorem logArgsF_eq (fuel : Nat) (f : TracedCall) (n : String) (g : Graph)
    (c : Cache) (h : sizeOf f ≤ fuel) :
    logArgsF fuel f n g c = logArgs f n g c := by
  obtain ⟨q, bpa, ba, sf⟩ := f
  cases ba with
  | none => simp [logArgsF, logArgs]
  | some args =>
      simp only [logArgsF, logArgs]
      apply foldl_congr
      intro a ha b
      obtain ⟨a1, a2⟩ := a
      have hmem := List.sizeOf_lt_of_mem ha
      have hsz : sizeOf a2 ≤ fuel := by
        simp at h hmem
        omega
      rw [log_shape_infoF_eq fuel a1 a2 (some n) b.1 b.2 hsz]

/-- Enough fuel makes the mirror agree with `logOutputs`. -/
theorem logOutputsF_eq (fuel : Nat) (n : String) (o : Obj) (g : Graph)
    (c : Cache) (h : sizeOf o ≤ fuel) :
    logOutputsF fuel n o g c = logOutputs n o g c := by
  obtain ⟨io, vo⟩ := o
  cases vo with
  | vdict entries =>
      simp only [logOutputsF, logOutputs]
      apply foldl_congr
      intro e he b
      obtain ⟨k, i, v⟩ := e
      have hmem := List.sizeOf_lt_of_mem he
      have hsz : sizeOf ((i, v) : Nat × Val) ≤ fuel := by
        simp at h hmem ⊢
        omega
      rw [log_shape_infoF_eq fuel ("Output[" ++ pyStrKey k ++ "]") (i, v)
        (some n) b.1 b.2 hsz]
  | vlist items =>
      simp only [logOutputsF, logOutputs]
      rw [foldl_congr _ (fun acc it =>
          (log_shape_info ("Output[" ++ toString acc.2 ++ "]") it (some n)
            acc.1.1 acc.1.2, acc.2 + 1)) items ((g, c), 0) ?_]
      intro a ha b
      have hmem := List.sizeOf_lt_of_mem ha
      have hsz : sizeOf a ≤ fuel := by
        simp at h
        omega
      rw [log_shape_infoF_eq fuel ("Output[" ++ toString b.2 ++ "]") a
        (some n) b.1.1 b.1.2 hsz]
  | vtuple items =>
      simp only [logOutputsF, logOutputs]
      rw [foldl_congr _ (fun acc it =>
          (log_shape_info ("Output[" ++ toString acc.2 ++ "]") it (some n)
            acc.1.1 acc.1.2, acc.2 + 1)) items ((g, c), 0) ?_]
      intro a ha b
      have hmem := List.sizeOf_lt_of_mem ha
      have hsz : sizeOf a ≤ fuel := by
        simp at h
        omega
      rw [log_shape_infoF_eq fuel ("Output[" ++ toString b.2 ++ "]") a
        (some n) b.1.1 b.1.2 hsz]
  | tensor es =>
      simp only [logOutputsF, logOutputs]
      rw [log_shape_infoF_eq fuel "Output" (io, .tensor es) (some n) g c h]
  | vprim p =>
      simp only [logOutputsF, logOutputs]
      rw [log_shape_infoF_eq fuel "Output" (io, .vprim p) (some n) g c h]
  | vobj pk tn rn =>
      simp only [logOutputsF, logOutputs]
      rw [log_shape_infoF_eq fuel "Output" (io, .vobj pk tn rn) (some n) g c h]

/-- Enough fuel makes the mirror agree with `enterCall`. -/
theorem enterCallF_eq (fuel : Nat) (f : TracedCall) (st : TraceState)
    (h : sizeOf f ≤ fuel) : enterCallF fuel f st = enterCall f st := by
  simp only [enterCallF, enterCall]
  cases hb : ensureBump (resolveNode f.qualname st).1
      (resolveNode f.qualname st).2.graph with
  | none => simp [hb]
  | some g2 =>
      simp only [hb]
      cases hc : callerSection f (resolveNode f.qualname st).1
          { (resolveNode f.qualname st).2 with graph := g2 } with
      | none => simp
      | some g3 =>
          simp only
          by_cases hsf : f.sigFails
          · simp [hsf]
          · simp only [hsf, if_false, Bool.false_eq_true]
            rw [logArgsF_eq fuel f (resolveNode f.qualname st).1 _ _ h]

mutual

/-- Enough fuel makes the mirror agree with `runCall`. -/
theorem runCallF_eq : ∀ (fuel : Nat) (t : CallTree) (st : TraceState),
    sizeOf t ≤ fuel → runCallF fuel t st = runCall t st
  | 0, .node f children outcome, st => fun h => by
      exfalso
      simp at h
  | fuel + 1, .node f children outcome, st => fun h => by
      have hf : sizeOf f ≤ fuel := by
        simp at h
        omega
      have hch : sizeOf children ≤ fuel := by
        simp at h
        omega
      simp only [runCallF, runCall]
      rw [enterCallF_eq fuel f st hf]
      cases he : (enterCall f st).1 with
      | error e => simp [he]
      | ok n =>
          simp only [he]
          rw [runChildrenF_eq fuel children (enterCall f st).2 hch]
          cases hrc : (runChildren children (enterCall f st).2).1 with
          | some e => simp [hrc]
          | none =>
              simp only [hrc]
              cases outcome with
              | error msg => simp
              | ok v =>
                  have hv : sizeOf v ≤ fuel := by
                    simp at h
                    omega
                  simp only
                  rw [logOutputsF_eq fuel n v _ _ hv]
termination_by fuel => fuel

/-- Enough fuel makes the mirror agree with `runChildren`. -/
theorem runChildrenF_eq : ∀ (fuel : Nat) (ts : List CallTree)
    (st : TraceState), sizeOf ts ≤ fuel →
    runChildrenF fuel ts st = runChildren ts st
  | 0, ts, st => fun h => by
      exfalso
      cases ts <;> simp at h
  | fuel + 1, [], st => fun _ => by
      simp [runChildrenF, runChildren]
  | fuel + 1, c :: rest, st => fun h => by
      have hc : sizeOf c ≤ fuel := by
        simp at h
        omega
      have hrest : sizeOf rest ≤ fuel := by
        simp at h
        omega
      simp only [runChildrenF, runChildren]
      rw [runCallF_eq fuel c st hc]
      cases hr : (runCall c st).1 with
      | error e =>
          simp only [hr]
          by_cases he : e.isTracer
          · simp [he]
          · simp only [he, if_false, Bool.false_eq_true]
            exact runChildrenF_eq fuel rest (runCall c st).2 hrest
      | ok v =>
          simp only [hr]
          exact runChildrenF_eq fuel rest (runCall c st).2 hrest
termination_by fuel => fuel

end

/-! ## Claims -/

set_option maxHeartbeats 2000000 in
/-- C6: calling an instrumented function `f` three times yields, in
non-unique mode, a single call node `f` with invocation count 3 and, in
unique-call mode, three distinct nodes `f_0`, `f_1`, `f_2` each with
invocation count 1 — re-entering an existing node id increments its count
instead of duplicating the node. -/
theorem invocation_counting :
    (threeCalls {}).graph.callCounts = [("f", 3)] ∧
    (threeCalls { uniqueCalls := true }).graph.callCounts =
      [("f_0", 1), ("f_1", 1), ("f_2", 1)] := by
  have hb : ∀ st : TraceState, runCall fTree st = runCallF 99999 fTree st :=
    fun st => (runCallF_eq 99999 fTree st (by decide)).symm
  constructor
  · simp only [threeCalls]
    rw [hb, hb, hb]
    decide
  · simp only [threeCalls]
    rw [hb, hb, hb]
    decide

/-- C3 counterexample: fingerprinting the empty tensor does raise the
designated `ValueError` inside `tensor_fingerprint`, but the catch-all
handler of `get_unique_id` (line 158) intercepts it, so the caller of
`get_unique_id` silently receives the fallback digest — contradicting the
claim that a fingerprint value is never returned. -/
theorem empty_tensor_silently_returns_fallback :
    tensor_fingerprint ([] : List Rat) =
      .error "Cannot generate unique ID for an empty tensor." ∧
    get_unique_id (7, .tensor []) [] =
      (sha256hex ("Tensor" ++ ":" ++ pyStrV (.tensor [])),
        [(7, sha256hex ("Tensor" ++ ":" ++ pyStrV (.tensor [])))]) := by
  refine ⟨rfl, ?_⟩
  simp [get_unique_id, lookupC, fingerprintOf, tensor_fingerprint, insertC,
    pyTypeName, List.find?]

/-- C3 amended: fingerprinting a zero-length tensor raises the designated
error inside the classifier, but `get_unique_id` catches it like any other
classification failure and returns (and caches) the fallback digest of the
type name plus the textual representation. -/
theorem empty_tensor_error_caught (i : Nat) (c : Cache)
    (h : lookupC i c = none) :
    tensor_fingerprint ([] : List Rat) =
      .error "Cannot generate unique ID for an empty tensor." ∧
    get_unique_id (i, .tensor []) c =
      (sha256hex ("Tensor" ++ ":" ++ pyStrV (.tensor [])),
        insertC i (sha256hex ("Tensor" ++ ":" ++ pyStrV (.tensor []))) c) := by
  refine ⟨rfl, ?_⟩
  simp [get_unique_id, h, fingerprintOf, tensor_fingerprint, pyTypeName]

/-- C3 witness: the amended behaviour at the concrete empty tensor with an
empty cache. -/
theorem empty_tensor_error_caught_witness :
    lookupC 7 ([] : Cache) = none ∧
    get_unique_id (7, .tensor []) [] =
      (sha256hex ("Tensor" ++ ":" ++ pyStrV (.tensor [])),
        insertC 7 (sha256hex ("Tensor" ++ ":" ++ pyStrV (.tensor []))) []) :=
  ⟨rfl, (empty_tensor_error_caught 7 [] rfl).2⟩

/-- C4 counterexample: after fingerprinting the int `1` as the object with
identity key 5, presenting a *different* value (the int `2`) under the same
identity key returns the stale digest of `1`, whereas the empty cache
yields the digest of `2` — so `get_unique_id` is not cache-oblivious. -/
theorem identity_cache_returns_stale_digest :
    (get_unique_id (5, .vprim (.pint 1)) []).2 =
      [(5, sha256hex (fpBytes (.primFP (.pint 1))))] ∧
    (get_unique_id (5, .vprim (.pint 2))
        [(5, sha256hex (fpBytes (.primFP (.pint 1))))]).1 =
      sha256hex (fpBytes (.primFP (.pint 1))) ∧
    (get_unique_id (5, .vprim (.pint 2)) []).1 =
      sha256hex (fpBytes (.primFP (.pint 2))) ∧
    sha256hex (fpBytes (.primFP (.pint 2))) ≠
      sha256hex (fpBytes (.primFP (.pint 1))) := by
  refine ⟨?_, ?_, ?_, ?_⟩
  · simp [get_unique_id, lookupC, fingerprintOf, insertC, List.find?]
  · simp [get_unique_id, lookupC, List.find?]
  · simp [get_unique_id, lookupC, fingerprintOf, insertC, List.find?]
  · decide

/-- C4 (amended): `get_unique_id` is cache-oblivious on objects none of
whose runtime-identity keys are already bound in the cache (with distinct
identity keys): it returns the fingerprint the empty cache would produce,
and extends the given cache by exactly the entries the empty-cache run
records. -/
theorem get_unique_id_cache_oblivious (o : Obj) (c : Cache)
    (hfresh : ∀ j ∈ objIds o, lookupC j c = none)
    (hnd : (objIds o).Nodup) :
    (get_unique_id o c).1 = (get_unique_id o []).1 ∧
    (get_unique_id o c).2 = c ++ (get_unique_id o []).2 := by
  obtain ⟨i, v⟩ := o
  obtain ⟨hfst, d, h1, h2, -⟩ :=
    guid_cache_oblivious i v c [] (fun j hj => ⟨hfresh j hj, rfl⟩) hnd
  refine ⟨hfst, ?_⟩
  rw [h1, h2]
  simp

/-- C4 amended theorem at a concrete input: fingerprinting the list
`[1]` (identity keys 5 and 6) against a cache holding an unrelated
binding for key 7 gives the same digest as against the empty cache, and
appends the empty-cache run's new entries to the given cache. -/
theorem get_unique_id_cache_oblivious_witness :
    (get_unique_id (5, .vlist [(6, .vprim (.pint 1))])
        [(7, "sha256:x")]).1 =
      (get_unique_id (5, .vlist [(6, .vprim (.pint 1))]) []).1 ∧
    (get_unique_id (5, .vlist [(6, .vprim (.pint 1))])
        [(7, "sha256:x")]).2 =
      [(7, "sha256:x")] ++
        (get_unique_id (5, .vlist [(6, .vprim (.pint 1))]) []).2 :=
  get_unique_id_cache_oblivious (5, .vlist [(6, .vprim (.pint 1))])
    [(7, "sha256:x")]
    (by
      intro j hj
      simp only [objIds, valIds.eq_def, itemIds] at hj
      simp at hj
      rcases hj with h | h <;> subst h <;> rfl)
    (by
      simp only [objIds, valIds.eq_def, itemIds]
      simp)

/-- C10: for a dict whose keys mix int and str (   mutually incomparable),
`get_unique_id` does not fail: the sorting `TypeError` is caught by the
catch-all handler which returns (and caches) the fallback digest of the
dict's type name plus its textual representation. -/
theorem mixed_keys_fallback (i : Nat) (c : Cache)
    (entries : List (PKey × Nat × Val))
    (hint : ∃ e ∈ entries, isIntKey e.1 = true)
    (hstr : ∃ e ∈ entries, isIntKey e.1 = false)
    (hfresh : lookupC i c = none) :
    get_unique_id (i, .vdict entries) c =
      (sha256hex ("dict" ++ ":" ++ pyStrV (.vdict entries)),
        insertC i (sha256hex ("dict" ++ ":" ++ pyStrV (.vdict entries))) c) := by
  obtain ⟨ei, hei, hik⟩ := hint
  obtain ⟨es, hes, hsk⟩ := hstr
  have hcomp : keysComparable entries = false := by
    have h1 : (entries.all fun e => isIntKey e.1) = false :=
      List.all_eq_false.mpr ⟨es, hes, by simp [hsk]⟩
    have h2 : (entries.all fun e => !isIntKey e.1) = false :=
      List.all_eq_false.mpr ⟨ei, hei, by simp [hik]⟩
    simp [keysComparable, h1, h2]
  have hps : pySorted entries = none := by simp [pySorted, hcomp]
  have hfp : fingerprintOf (.vdict entries) c =
      .error "unsupported comparison between int and str" := by
    simp only [fingerprintOf]
    split
    · rfl
    · rename_i hs
      rw [hps] at hs
      cases hs
  simp [get_unique_id, hfresh, hfp, pyTypeName]

/-- C10 witness: the mixed-key dict `\x7b1: "x", "a": 2\x7d` receives the
fallback digest of its textual representation. -/
theorem mixed_keys_fallback_witness :
    (∃ e ∈ [(PKey.kint 1, (2, Val.vprim (.pstr "x"))),
        (PKey.kstr "a", (3, Val.vprim (.pint 2)))], isIntKey e.1 = true) ∧
    (∃ e ∈ [(PKey.kint 1, (2, Val.vprim (.pstr "x"))),
        (PKey.kstr "a", (3, Val.vprim (.pint 2)))], isIntKey e.1 = false) ∧
    lookupC 1 ([] : Cache) = none ∧
    get_unique_id (1, .vdict [(PKey.kint 1, (2, Val.vprim (.pstr "x"))),
        (PKey.kstr "a", (3, Val.vprim (.pint 2)))]) [] =
      (sha256hex ("dict" ++ ":" ++ pyStrV (.vdict
          [(PKey.kint 1, (2, Val.vprim (.pstr "x"))),
           (PKey.kstr "a", (3, Val.vprim (.pint 2)))])),
        insertC 1 (sha256hex ("dict" ++ ":" ++ pyStrV (.vdict
          [(PKey.kint 1, (2, Val.vprim (.pstr "x"))),
           (PKey.kstr "a", (3, Val.vprim (.pint 2)))]))) []) :=
  ⟨by decide, by decide, rfl,
    mixed_keys_fallback 1 [] _ (by decide) (by decide) rfl⟩

/-- C7 counterexample: logging the list argument `x = [7]` under call node
`f` links the nested leaf from the node labelled `x` — the container's
label — and creates no edge out of the call node `f`, contradicting the
claim that nested leaves are linked from `parent_node`. -/
theorem nested_leaf_linked_from_container_label :
    (log_shape_info "x" (1, .vlist [(2, .vprim (.pint 7))]) (some "f")
        {} []).1.edges = [("x", "x.x[0]", {})] ∧
    ∀ e ∈ (log_shape_info "x" (1, .vlist [(2, .vprim (.pint 7))]) (some "f")
        {} []).1.edges, e.1 ≠ "f" := by
  have h : (log_shape_info "x" (1, .vlist [(2, .vprim (.pint 7))]) (some "f")
      {} []).1.edges = [("x", "x.x[0]", {})] := by
    simp [log_shape_info, logSeqItems, get_unique_id, lookupC, fingerprintOf,
      insertC, Graph.addNode, Graph.hasNode, Graph.nodeData, Graph.addEdge,
      Graph.hasEdge, pyTypeName, List.find?]
    decide
  refine ⟨h, ?_⟩
  rw [h]
  simp

/-- C9 amended: fingerprinting mappings is order-independent *for mappings
whose keys are mutually comparable*: two dicts holding the same (distinct-
keyed) entries in different insertion orders receive the same digest from
the same cache state, because the entries are sorted by key before
hashing.  (For mixed int/str keys the sort raises and the order-dependent
textual fallback is hashed instead — see the counterexample.) -/
theorem dict_fingerprint_order_independent (i1 i2 : Nat) (c : Cache)
    (l1 l2 : List (PKey × Nat × Val)) (hperm : l1.Perm l2)
    (hcomp : keysComparable l1 = true) (hnd : (l1.map (·.1)).Nodup)
    (h1 : lookupC i1 c = none) (h2 : lookupC i2 c = none) :
    (get_unique_id (i1, .vdict l1) c).1 = (get_unique_id (i2, .vdict l2) c).1 := by
  have hsort := pySorted_perm_eq hperm hnd
  have hs1 : pySorted l1 = some (l1.insertionSort entryLE) := by
    simp [pySorted, hcomp]
  rw [get_unique_id_not_cached _ _ _ h1, get_unique_id_not_cached _ _ _ h2,
    fingerprintOf_vdict, fingerprintOf_vdict, ← hsort, hs1]

/-- C9 witness: the two-entry string-keyed dict in both insertion orders,
from the empty cache. -/
theorem dict_fingerprint_order_independent_witness :
    ([(PKey.kstr "b", (3, Val.vprim (.pint 2))),
      (PKey.kstr "a", (2, Val.vprim (.pint 1)))].Perm
      [(PKey.kstr "a", (2, Val.vprim (.pint 1))),
       (PKey.kstr "b", (3, Val.vprim (.pint 2)))]) ∧
    keysComparable [(PKey.kstr "b", (3, Val.vprim (.pint 2))),
      (PKey.kstr "a", (2, Val.vprim (.pint 1)))] = true ∧
    (get_unique_id (10, .vdict [(PKey.kstr "b", (3, Val.vprim (.pint 2))),
        (PKey.kstr "a", (2, Val.vprim (.pint 1)))]) []).1 =
      (get_unique_id (11, .vdict [(PKey.kstr "a", (2, Val.vprim (.pint 1))),
        (PKey.kstr "b", (3, Val.vprim (.pint 2)))]) []).1 :=
  ⟨List.Perm.swap _ _ _, by decide,
    dict_fingerprint_order_independent 10 11 []
      [(PKey.kstr "b", (3, Val.vprim (.pint 2))),
       (PKey.kstr "a", (2, Val.vprim (.pint 1)))]
      [(PKey.kstr "a", (2, Val.vprim (.pint 1))),
       (PKey.kstr "b", (3, Val.vprim (.pint 2)))]
      (List.Perm.swap _ _ _) (by decide)
      (by simp) rfl rfl⟩

/-- C9 counterexample: for a mixed-key dict (one int key, one str key) the
sort raises, the fallback hashes the insertion-ordered textual
representation, and the two insertion orders of the *same* entries receive
different digests — so order-independence does not hold for every mapping. -/
theorem dict_fingerprint_order_dependent_mixed_keys :
    ([(PKey.kstr "a", (3, Val.vprim (.pint 2))),
      (PKey.kint 1, (2, Val.vprim (.pstr "x")))].Perm
      [(PKey.kint 1, (2, Val.vprim (.pstr "x"))),
       (PKey.kstr "a", (3, Val.vprim (.pint 2)))]) ∧
    (get_unique_id (1, .vdict [(PKey.kint 1, (2, Val.vprim (.pstr "x"))),
        (PKey.kstr "a", (3, Val.vprim (.pint 2)))]) []).1 ≠
      (get_unique_id (4, .vdict [(PKey.kstr "a", (3, Val.vprim (.pint 2))),
        (PKey.kint 1, (2, Val.vprim (.pstr "x")))]) []).1 := by
  refine ⟨List.Perm.swap _ _ _, ?_⟩
  simp only [get_unique_id, lookupC, List.find?, fingerprintOf, pySorted,
    keysComparable, isIntKey, List.all_cons, List.all_nil, Bool.and_true,
    Bool.and_false, Bool.or_self, Bool.false_or, Bool.or_false, if_false,
    Bool.false_and, Bool.true_and, pyTypeName, pyStrV, pyReprV,
    pyReprEntries, pyReprKey, pyReprPrim, sha256hex, insertC]
  decide

/-- C7 amended: `log_shape_info` creates no value node for a container
itself (the container branch ignores the `parent_node` argument entirely)
and recurses element-by-element under the namespaced label
`name[key]`, passing the *container's own label* as the new parent; a leaf
is fingerprinted and, when its parent label is usable, the value node
`parent.name` is created once — with the value's type and digest — and
linked from that parent label.  For a top-level leaf the parent label is
the call node; for a leaf nested in a container it is the container's
label, not the call node. -/
theorem log_shape_info_amended :
    (∀ (name : String) (i : Nat) (v : Val) (p : String) (g : Graph)
        (c : Cache), isLeafVal v = true → p ≠ "" →
      g.hasNode (p ++ "." ++ name) = false →
      log_shape_info name (i, v) (some p) g c =
        ((g.addNode (p ++ "." ++ name)
            { vtype := some (pyTypeName v),
              vid := some (get_unique_id (i, v) c).1 }).addEdge
          p (p ++ "." ++ name) {}, (get_unique_id (i, v) c).2)) ∧
    (∀ (name : String) (i : Nat) (v : Val) (p : String) (g : Graph)
        (c : Cache), isLeafVal v = true →
      g.hasNode (p ++ "." ++ name) = true →
      log_shape_info name (i, v) (some p) g c =
        (g, (get_unique_id (i, v) c).2)) ∧
    (∀ (name : String) (i : Nat) (entries : List (PKey × Nat × Val))
        (p q : Option String) (g : Graph) (c : Cache),
      log_shape_info name (i, .vdict entries) p g c =
        log_shape_info name (i, .vdict entries) q g c) ∧
    (∀ (name : String) (i : Nat) (items : List (Nat × Val))
        (p q : Option String) (g : Graph) (c : Cache),
      log_shape_info name (i, .vlist items) p g c =
        log_shape_info name (i, .vlist items) q g c ∧
      log_shape_info name (i, .vtuple items) p g c =
        log_shape_info name (i, .vtuple items) q g c) ∧
    (∀ (name : String) (i j : Nat) (v : Val) (p : Option String) (g : Graph)
        (c : Cache), isLeafVal v = true → name ≠ "" →
      g.hasNode (name ++ "." ++ (name ++ "[" ++ toString 0 ++ "]")) = false →
      log_shape_info name (i, .vlist [(j, v)]) p g c =
        ((g.addNode (name ++ "." ++ (name ++ "[" ++ toString 0 ++ "]"))
            { vtype := some (pyTypeName v),
              vid := some (get_unique_id (j, v) c).1 }).addEdge
          name (name ++ "." ++ (name ++ "[" ++ toString 0 ++ "]")) {},
          (get_unique_id (j, v) c).2)) := by
  have hleaf : ∀ (name : String) (i : Nat) (v : Val) (p : String) (g : Graph)
      (c : Cache), isLeafVal v = true → p ≠ "" →
      g.hasNode (p ++ "." ++ name) = false →
      log_shape_info name (i, v) (some p) g c =
        ((g.addNode (p ++ "." ++ name)
            { vtype := some (pyTypeName v),
              vid := some (get_unique_id (i, v) c).1 }).addEdge
          p (p ++ "." ++ name) {}, (get_unique_id (i, v) c).2) := by
    intro name i v p g c hv hp hfresh
    cases v <;> simp [isLeafVal] at hv <;>
      simp [log_shape_info, hp, hfresh, get_unique_id]
  refine ⟨hleaf, ?_, ?_, ?_, ?_⟩
  · intro name i v p g c hv hnode
    cases v <;> simp [isLeafVal] at hv <;>
      by_cases hp : p = "" <;> simp [log_shape_info, hp, hnode, get_unique_id]
  · intro name i entries p q g c
    simp [log_shape_info]
  · intro name i items p q g c
    constructor <;> simp [log_shape_info]
  · intro name i j v p g c hv hname hfresh
    have hstep : log_shape_info name (i, .vlist [(j, v)]) p g c =
        log_shape_info (name ++ "[" ++ toString 0 ++ "]") (j, v) (some name)
          g c := by
      have h2 : ∀ g2 c2, logSeqItems name 1 ([] : List (Nat × Val)) g2 c2 =
          (g2, c2) := by
        intro g2 c2
        simp [logSeqItems]
      simp [log_shape_info, logSeqItems]
    rw [hstep]
    exact hleaf _ j v name g c hv hname hfresh

/-- C7 witness: logging the top-level integer leaf `x` under call node `f`
creates the typed, fingerprinted value node `f.x` and links it from `f`. -/
theorem log_shape_info_amended_witness :
    isLeafVal (Val.vprim (.pint 7)) = true ∧ ("f" : String) ≠ "" ∧
    (({} : Graph)).hasNode ("f" ++ "." ++ "x") = false ∧
    log_shape_info "x" (2, .vprim (.pint 7)) (some "f") {} [] =
      ((({} : Graph).addNode ("f" ++ "." ++ "x")
          { vtype := some (pyTypeName (.vprim (.pint 7))),
            vid := some (get_unique_id (2, .vprim (.pint 7)) []).1 }).addEdge
        "f" ("f" ++ "." ++ "x") {},
        (get_unique_id (2, .vprim (.pint 7)) []).2) :=
  ⟨rfl, by decide, rfl,
    log_shape_info_amended.1 "x" 2 _ "f" {} [] rfl (by decide) rfl⟩

/-- C5 counterexample: two reachable traces violate the claim.  First,
with caller `p` taking argument `x`, the pre-step successor snapshot
contains the value node `p.x`, so the recorded sibling edges under `p` are
`p.x→c1, c1→c2, c2→c3` — not exactly `c1→c2, c2→c3`.  Second, in
`treeNested` the snapshot's last member before `b` begins is `a` with
`a ≠ b` and no *sibling* edge `a→b` — yet no sibling edge is created,
because the code tests `has_edge` of any kind and a call edge `a→b`
already exists. -/
theorem sibling_edges_counterexample :
    (runCall treeWithArg {}).2.graph.siblingEdges =
      [("p.x", "c1"), ("c1", "c2"), ("c2", "c3")] ∧
    treeNestedMid.stack.getLast? = some "p" ∧
    treeNestedMid.graph.successors "p" = ["a"] ∧
    treeNestedMid.graph.hasEdge "a" "b" = true ∧
    (treeNestedMid.graph.edgeData "a" "b").map (·.relationship) =
      some none ∧
    (runCall treeNested {}).2.graph.siblingEdges = [] := by
  have h1 : runCall treeWithArg {} = runCallF 99999 treeWithArg {} :=
    (runCallF_eq 99999 treeWithArg {} (by decide)).symm
  have h3 : runCall treeNested {} = runCallF 99999 treeNested {} :=
    (runCallF_eq 99999 treeNested {} (by decide)).symm
  have h2 : treeNestedMid =
      (runCallF 99999 (.node (plainCall "a") [leafCall "b" retObj]
        (.ok retObj)) (enterCall (plainCall "p") {}).2).2 := by
    unfold treeNestedMid
    rw [runCallF_eq 99999 _ _ (by decide)]
  refine ⟨?_, ?_, ?_, ?_, ?_, ?_⟩
  · rw [h1]
    decide
  · rw [h2]
    decide
  · rw [h2]
    decide
  · rw [h2]
    decide
  · rw [h2]
    decide
  · rw [h3]
    decide

/-- C5 amended: for an argument-free caller with children `c1, c2, c3`
invoked in that order from a clean state, the sibling edges are exactly
`c1→c2` and `c2→c3`; in general, when a new child begins, only the most
recently added member of the caller's pre-existing successor snapshot
(which may be a value node) can receive a single outgoing sibling edge to
the new node, and it does whenever it differs from the new node and from
the caller and *no edge of any kind* to the new node exists yet. -/
theorem sibling_chain_amended :
    (runCall treeNoArg {}).2.graph.siblingEdges =
      [("c1", "c2"), ("c2", "c3")] ∧
    (∀ (f : TracedCall) (st : TraceState) (e : String × String),
      e ∈ (enterCall f st).2.graph.siblingEdges →
      e ∈ st.graph.siblingEdges ∨
        (∃ caller, st.stack.getLast? = some caller ∧
          (st.graph.successors caller).getLast? = some e.1 ∧
          e.2 = (resolveNode f.qualname st).1)) ∧
    (∀ (f : TracedCall) (st : TraceState) (caller ls : String),
      st.stack.getLast? = some caller →
      (st.graph.successors caller).getLast? = some ls →
      ls ≠ (resolveNode f.qualname st).1 → ls ≠ caller →
      st.graph.hasEdge ls (resolveNode f.qualname st).1 = false →
      (enterCall f st).1 ≠ .error .keyError →
      (ls, (resolveNode f.qualname st).1) ∈
        (enterCall f st).2.graph.siblingEdges) := by
  refine ⟨?_, enterCall_sibling_sub, enterCall_sibling_creates⟩
  have hb : runCall treeNoArg {} = runCallF 99999 treeNoArg {} :=
    (runCallF_eq 99999 treeNoArg {} (by decide)).symm
  rw [hb]
  decide

/-- C5 witness: with caller `p` active and earlier child `a` its last
successor, entering traced call `b` records the sibling edge `a → b`. -/
theorem sibling_chain_amended_witness :
    stWitness.stack.getLast? = some "p" ∧
    (stWitness.graph.successors "p").getLast? = some "a" ∧
    ("a" : String) ≠ (resolveNode (plainCall "b").qualname stWitness).1 ∧
    ("a" : String) ≠ "p" ∧
    stWitness.graph.hasEdge "a"
      (resolveNode (plainCall "b").qualname stWitness).1 = false ∧
    (enterCall (plainCall "b") stWitness).1 ≠ .error .keyError ∧
    ("a", (resolveNode (plainCall "b").qualname stWitness).1) ∈
      (enterCall (plainCall "b") stWitness).2.graph.siblingEdges := by
  have hres : (enterCall (plainCall "b") stWitness).1 = .ok "b" := rfl
  have hok : (enterCall (plainCall "b") stWitness).1 ≠ .error .keyError := by
    rw [hres]
    intro h
    exact Except.noConfusion h
  refine ⟨rfl, rfl, by decide, by decide, by decide, hok, ?_⟩
  exact sibling_chain_amended.2.2 (plainCall "b") stWitness "p" "a" rfl rfl
    (by decide) (by decide) (by decide) hok

/-- C1 counterexample: for a traced callable whose `inspect.signature`
call raises, the wrapper propagates the introspection error from line 317
instead of the wrapped function's declared return value — so tracing can
alter observable behaviour. -/
theorem wrapper_not_transparent_on_signature_failure :
    (runCall badSigTree {}).1 = .error .sigError ∧
    declared badSigTree = .ok retObj ∧
    Except.error PyErr.sigError ≠ (declared badSigTree) := by
  refine ⟨?_, rfl, ?_⟩
  · simp [badSigTree, badSigCall, runCall, runChildren, enterCall,
      resolveNode, ensureBump, callerSection, logArgs, popStack,
      Graph.addNode, Graph.hasNode, Graph.nodeData, Graph.updateNode,
      lookupS, setS, List.find?]
  · rw [show declared badSigTree = .ok retObj from rfl]
    intro hcontra
    exact Except.noConfusion hcontra

/-- C1 amended: provided signature introspection succeeds for every traced
call and no internal `KeyError` (from a label collision of a call-node
name with an attribute-less auto-created node or value edge) occurs, the
wrapper is transparent: it returns exactly the wrapped call's declared
result and propagates exactly its declared error; fingerprinting and
graph-building never alter it. -/
theorem wrapper_transparent_amended (t : CallTree) (st : TraceState)
    (hsig : allSigOk t = true)
    (hkey : (runCall t st).1 ≠ .error .keyError) :
    (runCall t st).1 = declared t := by
  rcases runCall_transparent_aux t st hsig with h | h
  · exact h
  · exact absurd h hkey

/-- C1 witness: the single well-behaved call returns its declared value. -/
theorem wrapper_transparent_amended_witness :
    allSigOk fTree = true ∧
    (runCall fTree {}).1 ≠ .error .keyError ∧
    (runCall fTree {}).1 = declared fTree := by
  have hsig : allSigOk fTree = true := by
    simp [allSigOk, allSigOkL, fTree, leafCall, plainCall]
  have hres : (runCall fTree {}).1 = .ok retObj := by
    simp [fTree, leafCall, plainCall, retObj, runCall, runChildren,
      enterCall, resolveNode, ensureBump, callerSection, logArgs, logOutputs,
      log_shape_info, get_unique_id, fingerprintOf, lookupC, insertC,
      popStack, Graph.addNode, Graph.hasNode, Graph.nodeData,
      Graph.updateNode, Graph.addEdge, Graph.hasEdge, Graph.edgeData,
      Graph.updateEdge, Graph.successors, lookupS, setS, argSummaryOf,
      fpBytes, pyReprPrim, sha256hex, PyErr.isTracer, List.find?]
  have hkey : (runCall fTree {}).1 ≠ .error .keyError := by
    rw [hres]
    intro hcontra
    exact Except.noConfusion hcontra
  exact ⟨hsig, hkey, wrapper_transparent_amended fTree {} hsig hkey⟩

/-- C2 counterexample: when `inspect.signature` raises at line 317, the
node has already been pushed but the `try`/`finally` of lines 326-344 was
never entered, so the wrapper re-raises with its node still on the Call
Stack — the pop does not run on this exit path. -/
theorem stack_not_restored_on_signature_failure :
    (runCall badSigTree {}).2.stack = ["g"] ∧
    ({} : TraceState).stack = [] := by
  refine ⟨?_, rfl⟩
  simp [badSigTree, badSigCall, runCall, runChildren, enterCall,
    resolveNode, ensureBump, callerSection, logArgs, popStack,
    Graph.addNode, Graph.hasNode, Graph.nodeData, Graph.updateNode,
    lookupS, setS, List.find?]

/-- C2 amended: provided signature introspection succeeds for every traced
call in the execution, the wrapper pops the node it pushed on every exit
path — in particular, after a wrapped call raises, the Call Stack is
exactly what it was before the wrapper was entered (internal `KeyError`
aborts happen before the push and also leave the stack intact). -/
theorem call_stack_restored_amended (t : CallTree) (st : TraceState)
    (h : allSigOk t = true) : (runCall t st).2.stack = st.stack :=
  runCall_stack_restored t st h

/-- C2 witness: a traced call whose wrapped function raises still leaves
the stack as it found it. -/
theorem call_stack_restored_amended_witness :
    allSigOk (CallTree.node (plainCall "f") [] (.error "boom")) = true ∧
    (runCall (CallTree.node (plainCall "f") [] (.error "boom"))
      { stack := ["outer"] }).2.stack = ["outer"] := by
  have hsig : allSigOk (CallTree.node (plainCall "f") [] (.error "boom")) =
      true := by
    simp [allSigOk, allSigOkL, plainCall]
  exact ⟨hsig, call_stack_restored_amended _ _ hsig⟩

/-- C8 counterexample: (1) on the one-node graph with the self-loop
`x → x` the node `x` is never assigned a level, so not every node gets
one; (2) on the diamond `r → a`, `r → s`, `a → s` the node `s` is already
in the frontier processed at level 1 — its first discovery — yet its
final level is 2, because a later rediscovery overwrites instead of being
ignored. -/
theorem assign_levels_counterexample :
    (lookupS "x" (assign_levels selfLoopG) = none ∧
      "x" ∈ selfLoopG.nodes.map (·.1)) ∧
    ("s" ∈ (processLevel diamondG 0 [] diamondG.roots).2 ∧
      lookupS "s" (assign_levels diamondG) = some 2) := by
  refine ⟨⟨?_, by decide⟩, by decide, ?_⟩
  · decide
  · decide

/-- C8 (amended): on graphs whose edge endpoints are all nodes — which
`networkx.DiGraph` guarantees — `assign_levels` terminates: `2·|nodes|+2`
passes reach the empty frontier and any surplus fuel leaves the result
unchanged (self-loops included); and every in-degree-zero node is
assigned level 0 and keeps it.  (Not every node gets a level, and deeper
rediscoveries overwrite — see the counterexample.) -/
theorem assign_levels_amended (g : Graph) (hC : EdgesClosed g) :
    (∀ extra : Nat,
      assignLoop g (2 * g.nodes.length + 2 + extra) [] g.roots 0 =
        assign_levels g) ∧
    ∀ r ∈ g.roots, lookupS r (assign_levels g) = some 0 := by
  constructor
  · intro extra
    unfold assign_levels
    apply assignLoop_fuel_irrelevant g hC
    · intro n hn
      unfold Graph.roots at hn
      exact List.mem_of_mem_filter hn
    · intro f hf hsome
      simp [lookupS, List.find?] at hsome
    · have hle : countMissing g [] ≤ g.nodes.length := by
        unfold countMissing
        calc ((g.nodes.map (·.1)).countP fun n => (lookupS n []).isNone) ≤
            (g.nodes.map (·.1)).length := List.countP_le_length _
          _ = g.nodes.length := List.length_map _ _
      omega
  · intro r hr
    have hdeg : g.inDegree r = 0 := by
      unfold Graph.roots at hr
      have := (List.mem_filter.mp hr).2
      simpa using this
    unfold assign_levels
    have h2 : 2 * g.nodes.length + 2 = (2 * g.nodes.length + 1) + 1 := rfl
    rw [h2]
    cases hroots : g.roots with
    | nil =>
        rw [hroots] at hr
        cases hr
    | cons c0 rest =>
        have hstep : assignLoop g ((2 * g.nodes.length + 1) + 1) []
              (c0 :: rest) 0 =
            assignLoop g (2 * g.nodes.length + 1)
              (processLevel g 0 [] (c0 :: rest)).1
              (processLevel g 0 [] (c0 :: rest)).2 1 := rfl
        rw [hstep]
        apply assignLoop_keeps_root g r hdeg
        · rw [processLevel_lookup, if_pos (hroots ▸ hr)]
        · intro hmem
          obtain ⟨⟨n, _, hsucc⟩, _⟩ :=
            processLevel_next_mem g 0 (c0 :: rest) [] r hmem
          exact inDegree_pos_of_succ g n r hsucc hdeg

/-- C8 amended theorem at the diamond graph: five units of surplus fuel
leave the result unchanged, and the sole in-degree-zero node `r` ends at
level 0. -/
theorem assign_levels_amended_witness :
    EdgesClosed diamondG ∧
    assignLoop diamondG (2 * diamondG.nodes.length + 2 + 5) []
        diamondG.roots 0 =
      assign_levels diamondG ∧
    lookupS "r" (assign_levels diamondG) = some 0 :=
  ⟨by decide, (assign_levels_amended diamondG (by decide)).1 5,
    (assign_levels_amended diamondG (by decide)).2 "r" (by decide)⟩

end Tracing
